import Mathlib

/-!
Verification development for the Argus automated remediation & pull-request
pipeline (Go sources: `internal/patch`, `internal/pr`, `internal/githubapp`).

The Go code is shallowly embedded: pure functions become Lean functions over
`List Char` / `String`; the file system is an association list from paths to
file contents; external effects (data base, `git` subprocesses, HTTP calls to
the provider) become oracle inputs and an explicit event trace.
-/

namespace Argus

/-! ## Character classes and basic string machinery

Go's `strings` functions used by the sources are modelled on `List Char`.
`TrimSpace` trims `unicode.IsSpace` characters; the model covers the
Latin-1 white-space set, which is what can occur in the data the claims
exercise.  `ToLower`/`filepath.ToSlash` are modelled for ASCII / Unix. -/

def isGoSpace (c : Char) : Bool :=
  c = ' ' || c = '\t' || c = '\n' || c = '\x0b' || c = '\x0c' || c = '\r' ||
  c = '\x85' || c = '\xa0'

/-- Go `strings.TrimSpace` on `List Char`. -/
def trimSpace (l : List Char) : List Char :=
  ((l.dropWhile isGoSpace).reverse.dropWhile isGoSpace).reverse

/-- Go `strings.ToLower` (ASCII fragment). -/
def toLowerStr (l : List Char) : List Char := l.map Char.toLower

/-- Go `strings.Contains` as list-infix test. -/
def containsStr : List Char → List Char → Bool
  | hay, needle =>
    needle.isPrefixOf hay ||
      match hay with
      | [] => false
      | _ :: t => containsStr t needle

/-- Go `strings.HasPrefix`. -/
def hasPrefixStr (l pre : List Char) : Bool := pre.isPrefixOf l

/-- Go `strings.HasSuffix`. -/
def hasSuffixStr (l suf : List Char) : Bool := suf.isSuffixOf l

/-- Go `strings.ReplaceAll(s, "\r\n", "\n")`: one left-to-right pass replacing
non-overlapping occurrences of CR-LF by LF. -/
def normCRLF : List Char → List Char
  | '\r' :: '\n' :: rest => '\n' :: normCRLF rest
  | c :: rest => c :: normCRLF rest
  | [] => []

/-- Go `strings.Split(s, sep)` for a one-character separator: always returns
at least one piece. -/
def splitOnCh (sep : Char) : List Char → List (List Char)
  | [] => [[]]
  | c :: cs =>
    if c = sep then [] :: splitOnCh sep cs
    else
      match splitOnCh sep cs with
      | [] => [[c]]
      | l :: ls => (c :: l) :: ls

/-- Go `strings.Join(parts, sep)` for a one-character separator. -/
def joinCh (sep : Char) : List (List Char) → List Char
  | [] => []
  | [l] => l
  | l :: ls => l ++ sep :: joinCh sep ls

/-- Go `strings.Split(s, "\n")`. -/
def splitNL : List Char → List (List Char) := splitOnCh '\n'

/-- Go `strings.Join(lines, "\n")`. -/
def joinNL : List (List Char) → List Char := joinCh '\n'

/-- Every carriage return in the list is immediately followed by a newline
(i.e. the content has no "lone" CR). -/
def crOnlyBeforeLF : List Char → Bool
  | [] => true
  | '\r' :: '\n' :: rest => crOnlyBeforeLF rest
  | '\r' :: _ => false
  | _ :: rest => crOnlyBeforeLF rest

/-! ## The secret-assignment matcher

Embeds the Go regular expression

  `(?i)^([ \t]*[A-Z0-9_\-\.]*?(token|secret|password|apikey|api_key)`
  `[A-Z0-9_\-\.]*(?:[ \t]*[:=][ \t]*|[ \t]+))("[^"]*"|'[^']*'|`
  `[A-Za-z0-9_\-]{12,})(.*)$`

(`patch.secretAssignPattern`).  Because the character classes involved are
pairwise disjoint (blank vs. name characters vs. `:`/`=` vs. quotes), the
backtracking search of Go's engine is deterministic and the match, when it
exists, decomposes the line as

  group1 = blanks ++ name-run (containing a keyword) ++ separator,
  group3 = a quoted or long bare value, group4 = the rest,

which is what `matchSecretAssign` computes. -/

def isBlank (c : Char) : Bool := c = ' ' || c = '\t'

/-- The class `[A-Z0-9_\-\.]` under `(?i)`. -/
def isNameChar (c : Char) : Bool :=
  c.isUpper || c.isLower || c.isDigit || c = '_' || c = '-' || c = '.'

/-- The bare-value class `[A-Za-z0-9_\-]`. -/
def isBareChar (c : Char) : Bool :=
  c.isUpper || c.isLower || c.isDigit || c = '_' || c = '-'

/-- The alternation `token|secret|password|apikey|api_key`, case-insensitively,
somewhere inside the name run. -/
def hasSecretKeyword (run : List Char) : Bool :=
  let low := toLowerStr run
  containsStr low "token".data || containsStr low "secret".data ||
  containsStr low "password".data || containsStr low "apikey".data ||
  containsStr low "api_key".data

/-- The separator `(?:[ \t]*[:=][ \t]*|[ \t]+)`: returns the consumed
separator text and the remainder. -/
def parseSep (l : List Char) : Option (List Char × List Char) :=
  let ws1 := l.takeWhile isBlank
  let r := l.dropWhile isBlank
  match r with
  | c :: r' =>
    if c = ':' || c = '=' then
      some (ws1 ++ c :: r'.takeWhile isBlank, r'.dropWhile isBlank)
    else if ws1 ≠ [] then some (ws1, r) else none
  | [] => if ws1 ≠ [] then some (ws1, []) else none

/-- The value `("[^"]*"|'[^']*'|[A-Za-z0-9_\-]{12,})`: returns the consumed
value text and the remainder. -/
def parseValue (l : List Char) : Option (List Char × List Char) :=
  match l with
  | '"' :: r =>
    match r.dropWhile (fun c => c ≠ '"') with
    | '"' :: rest => some ('"' :: r.takeWhile (fun c => c ≠ '"') ++ ['"'], rest)
    | _ => none
  | '\'' :: r =>
    match r.dropWhile (fun c => c ≠ '\'') with
    | '\'' :: rest => some ('\'' :: r.takeWhile (fun c => c ≠ '\'') ++ ['\''], rest)
    | _ => none
  | _ =>
    if 12 ≤ (l.takeWhile isBareChar).length then
      some (l.takeWhile isBareChar, l.dropWhile isBareChar)
    else none

/-- Full-line match of `secretAssignPattern`.  On success returns
`(group1, group3, group4)`. -/
def matchSecretAssign (l : List Char) : Option (List Char × List Char × List Char) :=
  let ws := l.takeWhile isBlank
  let rest1 := l.dropWhile isBlank
  let run := rest1.takeWhile isNameChar
  let rest2 := rest1.dropWhile isNameChar
  if hasSecretKeyword run then
    match parseSep rest2 with
    | none => none
    | some (sep, rest3) =>
      match parseValue rest3 with
      | none => none
      | some (v, rest4) => some (ws ++ run ++ sep, v, rest4)
  else none

/-- The fixed replacement value written by `patch.redactLine`:
`"$\x7bSECRET_FROM_ENV\x7d"` (a quoted placeholder). -/
def placeholder : List Char :=
  ['"', '$', '\x7b'] ++ "SECRET_FROM_ENV".data ++ ['\x7d', '"']

/-- Go `patch.redactLine`: on a match, `group1 ++ placeholder ++ group4`. -/
def redactLine (line : List Char) : Option (List Char) :=
  match matchSecretAssign line with
  | none => none
  | some (m1, _, m4) => some (m1 ++ placeholder ++ m4)

/-! ## Unix path cleaning

`filepath.Clean` / `filepath.Join` on a Unix host.  `Clean` is embedded by
its standard component description: split on `/`, drop empty components and
`.`, resolve `..` against a stack (kept literally when the path is relative
and the stack is empty or all `..`), and re-render. -/

/-- Split on `/` (Go `strings.Split(s, "/")`, list version). -/
def splitSlash : List Char → List (List Char) := splitOnCh '/'

/-- Process the components of a path against a stack, as `filepath.Clean`
does.  `rooted` records whether the path began with `/`. -/
def cleanComps (rooted : Bool) : List (List Char) → List (List Char) → List (List Char)
  | stack, [] => stack
  | stack, c :: cs =>
    if c = [] || c = ['.'] then cleanComps rooted stack cs
    else if c = ['.', '.'] then
      match stack.getLast? with
      | none => cleanComps rooted (if rooted then [] else [['.', '.']]) cs
      | some top =>
        if top = ['.', '.'] then cleanComps rooted (stack ++ [['.', '.']]) cs
        else cleanComps rooted stack.dropLast cs
    else cleanComps rooted (stack ++ [c]) cs

/-- Join components with `/`. -/
def joinComps : List (List Char) → List Char := joinCh '/'

/-- `filepath.Clean` on a Unix host, on `List Char`. -/
def cleanData (p : List Char) : List Char :=
  if p = [] then ['.']
  else
    let rooted := p.head? = some '/'
    let stack := cleanComps rooted [] (splitSlash p)
    if rooted then '/' :: joinComps stack
    else if stack = [] then ['.']
    else joinComps stack

/-- `filepath.Clean` on `String`. -/
def pathClean (p : String) : String := ⟨cleanData p.data⟩

/-- `filepath.Join` of two elements on a Unix host: concatenate the non-empty
elements with `/` and clean the result. -/
def pathJoin (a b : String) : String :=
  if a.data = [] then pathClean b
  else if b.data = [] then pathClean a
  else ⟨cleanData (a.data ++ '/' :: b.data)⟩

/-- The containment test `ApplyPlan` applies to a redaction target: the
target lies under `root + "/"` or is the root itself. -/
def inRoot (root q : String) : Bool :=
  hasPrefixStr q.data (root.data ++ ['/']) || decide (q = root)

/-- A path component that `filepath.Clean` pushes unchanged: nonempty and
neither `.` nor `..` (components produced by `splitSlash` contain no `/`). -/
def validComp (c : List Char) : Bool :=
  decide (c ≠ []) && decide (c ≠ ['.']) && decide (c ≠ ['.', '.'])

/-- A well-formed absolute working-copy root: `/` followed by at least one
ordinary component, as `filepath.Clean` yields on a real checkout directory. -/
def GoodRoot (root : String) : Bool :=
  match root.data with
  | '/' :: rest => decide (rest ≠ []) && (splitSlash rest).all validComp
  | _ => false

/-! ## File-system model

The working copy is an association list from (absolute) path strings to file
contents; `lookupFS` is `os.ReadFile` (with `none` as "does not exist") and
`setFS` is `os.WriteFile`.  Other I/O failures cannot occur in the model. -/

abbrev FS := List (String × String)

def lookupFS (fs : FS) (p : String) : Option String :=
  match fs with
  | [] => none
  | (q, v) :: rest => if q = p then some v else lookupFS rest p

def setFS (fs : FS) (p : String) (v : String) : FS :=
  match fs with
  | [] => [(p, v)]
  | (q, w) :: rest => if q = p then (q, v) :: rest else (q, w) :: setFS rest p v

/-! ## The `patch` package: data model and planner -/

structure Finding where
  Tool : String
  Title : String
  FilePath : String
  LineStart : Int
deriving DecidableEq, Repr

/-- `FixActionType` is a Go string type; the two known values are below and
`ApplyPlan` has a default branch for anything else. -/
abbrev FixActionType := String

def FixSecretRedaction : FixActionType := "secret_redaction"
def FixGitIgnoreEnv : FixActionType := "gitignore_env"

structure FixAction where
  Type' : FixActionType
  FilePath : String
  LineStart : Int
  Description : String
deriving DecidableEq, Repr

structure ManualItem where
  Reason : String
  Title : String
  File : String
deriving DecidableEq, Repr

structure Plan where
  Actions : List FixAction
  Manual : List ManualItem
deriving DecidableEq, Repr

/-- `filepath.ToSlash` is the identity on a Unix host. -/
def toSlash (s : String) : String := s

def trimStr (s : String) : String := ⟨trimSpace s.data⟩

def lowerStr (s : String) : String := ⟨toLowerStr s.data⟩

/-- One iteration body plus the `len(plan.Actions) >= maxFixes` break of the
walk inside `patch.BuildPlan`. -/
def buildPlanLoop (cap : Int) : List Finding → Plan → Bool → Plan × Bool
  | [], plan, seen => (plan, seen)
  | f :: rest, plan, seen =>
    if cap ≤ (plan.Actions.length : Int) then (plan, seen)
    else
      let filePath := toSlash (trimStr f.FilePath)
      let title := lowerStr (trimStr f.Title)
      let tool := lowerStr (trimStr f.Tool)
      if (tool = "gitleaks" || containsStr title.data "secret".data) && filePath ≠ "" then
        buildPlanLoop cap rest
          { plan with Actions := plan.Actions ++
              [{ Type' := FixSecretRedaction, FilePath := filePath,
                 LineStart := f.LineStart,
                 Description := "Replace hardcoded credential-like value with environment placeholder" }] }
          seen
      else if !seen then
        buildPlanLoop cap rest
          { plan with Actions := plan.Actions ++
              [{ Type' := FixGitIgnoreEnv, FilePath := ".gitignore",
                 LineStart := 0, Description := "Ensure .env is ignored" }] }
          true
      else
        buildPlanLoop cap rest
          { plan with Manual := plan.Manual ++
              [{ Reason := "manual fix required: ambiguous or potentially unsafe automatic change",
                 Title := f.Title, File := f.FilePath }] }
          seen

/-- Go `patch.BuildPlan`. -/
def BuildPlan (findings : List Finding) (maxFixes : Int) : Plan :=
  let cap := if maxFixes ≤ 0 then 10 else maxFixes
  let res := buildPlanLoop cap findings { Actions := [], Manual := [] } false
  if !res.2 && (res.1.Actions.length : Int) < cap then
    { res.1 with Actions := res.1.Actions ++
        [{ Type' := FixGitIgnoreEnv, FilePath := ".gitignore",
           LineStart := 0, Description := "Ensure .env is ignored" }] }
  else res.1

/-! ## The `patch` package: applier -/

structure ApplyResult where
  Applied : List FixAction
  Manual : List ManualItem
deriving DecidableEq, Repr

/-- The check `strings.TrimSpace(l) == ".env"` over the CRLF-normalised lines
of a `.gitignore` content, from `patch.ensureEnvIgnored`. -/
def envLinePresent (s : String) : Bool :=
  (splitNL (normCRLF s.data)).any (fun l => trimSpace l = ".env".data)

/-- Go `patch.ensureEnvIgnored`: the absent file reads as empty; returns
whether `.env` was appended, plus the updated file system. -/
def ensureEnvIgnored (fs : FS) (path : String) : Bool × FS :=
  let s : List Char := ((lookupFS fs path).map String.data).getD []
  if (splitNL (normCRLF s)).any (fun l => trimSpace l = ".env".data) then (false, fs)
  else
    let s' := (if s ≠ [] && ¬ hasSuffixStr s ['\n'] then s ++ ['\n'] else s) ++ ".env\n".data
    (true, setFS fs path ⟨s'⟩)

/-- First line (in order) on which `redactLine` succeeds, with its index. -/
def scanRedact : List (List Char) → Option (Nat × List Char)
  | [] => none
  | l :: ls =>
    match redactLine l with
    | some r => some (0, r)
    | none => (scanRedact ls).map (fun p => (p.1 + 1, p.2))

/-- The fallback loop of `patch.redactSecretLine`: redact the first matching
line in file order. -/
def redactScan (lines : List (List Char)) : Option (List Char) :=
  match scanRedact lines with
  | some (i, repl) => some (joinNL (lines.set i repl))
  | none => none

/-- The pure content transformation of `patch.redactSecretLine`: CRLF-normalise,
split into lines, try the declared line first, otherwise redact the first
matching line; `none` when nothing matches. -/
def redactContent (content : List Char) (lineStart : Int) : Option (List Char) :=
  if 0 < lineStart ∧ lineStart ≤ ((splitNL (normCRLF content)).length : Int) then
    match redactLine ((splitNL (normCRLF content)).getD (lineStart.toNat - 1) []) with
    | some repl =>
      some (joinNL ((splitNL (normCRLF content)).set (lineStart.toNat - 1) repl))
    | none => redactScan (splitNL (normCRLF content))
  else redactScan (splitNL (normCRLF content))

/-- Go `patch.redactSecretLine`: a missing file is reported as "not applied";
on success the whole file is rewritten LF-joined. -/
def redactSecretLine (fs : FS) (path : String) (lineStart : Int) : Bool × FS :=
  match lookupFS fs path with
  | none => (false, fs)
  | some c =>
    match redactContent c.data lineStart with
    | none => (false, fs)
    | some c' => (true, setFS fs path ⟨c'⟩)

/-- One `switch action.Type` iteration of `patch.ApplyPlan`'s loop. -/
def applyStep (root : String) (st : ApplyResult × FS) (action : FixAction) :
    ApplyResult × FS :=
  let res := st.1
  let fs := st.2
  if action.Type' = FixGitIgnoreEnv then
    let (applied, fs') := ensureEnvIgnored fs (pathJoin root ".gitignore")
    (if applied then { res with Applied := res.Applied ++ [action] } else res, fs')
  else if action.Type' = FixSecretRedaction then
    let rel := pathClean action.FilePath
    let target := pathJoin root rel
    if ¬ hasPrefixStr target.data (root.data ++ ['/']) ∧ target ≠ root then
      ({ res with Manual := res.Manual ++
          [{ Reason := "manual fix required: invalid target path",
             Title := action.Description, File := action.FilePath }] }, fs)
    else
      let (applied, fs') := redactSecretLine fs target action.LineStart
      if applied then ({ res with Applied := res.Applied ++ [action] }, fs')
      else
        ({ res with Manual := res.Manual ++
            [{ Reason := "manual fix required: no safe redaction match found",
               Title := action.Description, File := action.FilePath }] }, fs')
  else
    ({ res with Manual := res.Manual ++
        [{ Reason := "manual fix required: unsupported action",
           Title := action.Description, File := action.FilePath }] }, fs)

/-- Go `patch.ApplyPlan` (its error returns are I/O failures, which the
file-system model cannot produce). -/
def ApplyPlan (repoDir : String) (plan : Plan) (fs : FS) : ApplyResult × FS :=
  plan.Actions.foldl (applyStep (pathClean repoDir))
    ({ Applied := [], Manual := plan.Manual }, fs)

/-! ## The `githubapp` package

HTTP responses are modelled by their status code and the value of the
`token` field after `json.Unmarshal` (`none` = the body does not
unmarshal; Go decodes a missing field to `""`). -/

structure RespModel where
  statusCode : Nat
  bodyToken : Option String
deriving DecidableEq, Repr

/-- Go `githubapp.Client.InstallationToken`.  `jwtResult` is the outcome of
`appJWT` (PEM parsing and RSA signing); `resp` is the outcome of the HTTP
exchange (`none` = transport error). -/
def InstallationToken (jwtResult : Except String String)
    (resp : Option RespModel) : Except String String :=
  match jwtResult with
  | .error e => .error e
  | .ok _ =>
    match resp with
    | none => .error "http error"
    | some r =>
      if 300 ≤ r.statusCode then .error "token exchange failed"
      else
        match r.bodyToken with
        | none => .error "json unmarshal error"
        | some t => if t = "" then .error "empty installation token" else .ok t

/-- Go `strconv.ParseInt(s, 10, 64)` (sign, decimal digits, 64-bit range). -/
def parseInt64 (s : String) : Option Int :=
  let (sign, digits) : Int × List Char :=
    match s.data with
    | '+' :: r => (1, r)
    | '-' :: r => (-1, r)
    | r => (1, r)
  if digits = [] || ¬ digits.all Char.isDigit then none
  else
    let v : Int := sign * (digits.foldl (fun a c => a * 10 + (c.toNat - 48)) 0 : Nat)
    if -(2 ^ 63) ≤ v ∧ v ≤ 2 ^ 63 - 1 then some v else none

/-- Go `githubapp.ValidateGitHubAppIDs`. -/
def ValidateGitHubAppIDs (appID installationID : String) : Except String Unit :=
  if (parseInt64 appID).isNone then .error "GITHUB_APP_ID must be numeric"
  else if (parseInt64 installationID).isNone then
    .error "GITHUB_INSTALLATION_ID must be numeric"
  else .ok ()

/-- Go `strings.TrimPrefix`. -/
def trimPrefixStr (l pre : List Char) : List Char :=
  if pre.isPrefixOf l then l.drop pre.length else l

/-- Go `strings.TrimSuffix`. -/
def trimSuffixStr (l suf : List Char) : List Char :=
  if suf.isSuffixOf l then l.take (l.length - suf.length) else l

/-- Go `githubapp.ParseGitHubURL`. -/
def ParseGitHubURL (raw : String) : Except String (String × String) :=
  let u := trimPrefixStr (trimSpace raw.data) "https://github.com/".data
  match splitSlash u with
  | p0 :: p1 :: _ =>
    let owner := trimSpace p0
    let repo := trimSuffixStr (trimSpace p1) ".git".data
    if owner = [] || repo = [] then .error "invalid github url"
    else .ok (⟨owner⟩, ⟨repo⟩)
  | _ => .error "invalid github url"

/-! ## The `pr` package: orchestrator

`Service.Create` is embedded with its external collaborators (data base,
`git` subprocesses, provider HTTP calls) as oracle inputs, and with an
explicit trace of credential/provider/persistence events so that claims
about "what was consulted or mutated" are statable. -/

structure Request where
  RepoID : String
  Title : String
  BaseBranch : String
  Confirm : Bool
  MaxFixes : Int
  RequestedBy : String
deriving DecidableEq, Repr

structure Response where
  Mode : String
  Diff : String
  PRURL : String
  Branch : String
deriving DecidableEq, Repr

inductive Event
  /-- `githubapp.NewFromEnv` read the `GITHUB_*` environment variables. -/
  | credsRead
  /-- `githubapp.ValidateGitHubAppIDs` read the app/installation IDs. -/
  | validateIDs
  /-- the signed-assertion/token HTTP exchange with the provider was issued -/
  | tokenExchange
  | ghGetDefaultBranch
  | ghGetBranchSHA
  /-- remote ref creation (a remote mutation) -/
  | ghCreateRef
  /-- local branch/commit and authenticated `git push` (a remote mutation) -/
  | gitPush
  /-- pull-request creation (a remote mutation) -/
  | ghCreatePR
  /-- a `RemediationRecord` row was inserted into `prs` -/
  | persistRecord (status branch prURL diff : String)
deriving DecidableEq, Repr

/-- Provider-side oracles for one request. -/
structure GitHubEnv where
  /-- `os.Getenv("GITHUB_APP_ID")` etc. -/
  appID : String
  installationID : String
  privateKeyPEM : String
  /-- outcome of `appJWT` (PEM decoding and RSA-SHA256 signing) -/
  jwtOk : Bool
  /-- outcome of the token-exchange HTTP call -/
  tokenResp : Option RespModel
  /-- `GetDefaultBranch` outcome (`none` also covers an empty field) -/
  defaultBranch : Option String
  branchSHA : Option String
  createRefOk : Bool
  /-- `CreatePullRequest` outcome: `html_url` on success -/
  prHTMLURL : Option String

/-- External collaborators of `Service.Create` for one request. -/
structure CreateEnv where
  /-- `SELECT url FROM repos WHERE id=$1` (`none` = no row) -/
  repoURL : Option String
  /-- the findings query result (ordering and `LIMIT` are done by SQL) -/
  findingRows : List Finding
  /-- `git clone` outcome -/
  cloneOk : Bool
  /-- the cloned working copy -/
  cloneFS : FS
  /-- the cloned working directory path (`workDir/repo`) -/
  repoDir : String
  /-- total size in bytes of the regular files in the clone -/
  sizeBytes : Nat
  /-- `git diff -- .` oracle over the mutated working copy (`none` = failure) -/
  diffOf : FS → Option String
  gh : GitHubEnv
  /-- `commitAndPush` outcome ("nothing to commit" counts as success) -/
  commitPushOk : Bool
  /-- `time.Now().Unix()` when the branch name is built -/
  nowUnix : Int
  /-- `INSERT INTO prs ...` outcome -/
  recordOk : Bool

/-- Go `pr.Service.loadFindings`: an empty query result is replaced by the
synthetic "ensure `.env` ignored" finding. -/
def loadFindings (rows : List Finding) : List Finding :=
  if rows = [] then
    [{ Tool := "policy", Title := "Ensure .env ignored", FilePath := ".gitignore",
       LineStart := 0 }]
  else rows

/-- Go `pr.enforceSizeCap` with `maxMB = 350`. -/
def enforceSizeCap (sizeBytes : Nat) (maxMB : Nat) : Except String Unit :=
  if maxMB * 1024 * 1024 < sizeBytes then .error "repo exceeds size cap" else .ok ()

/-- Go `pr.GenerateDryRunDiff`: plan, apply, read the working-tree diff. -/
def GenerateDryRunDiff (env : CreateEnv) (findings : List Finding) (maxFixes : Int) :
    Except String (String × Plan × ApplyResult) :=
  let plan := BuildPlan findings maxFixes
  let (applied, fs') := ApplyPlan env.repoDir plan env.cloneFS
  match env.diffOf fs' with
  | none => .error "git diff failed"
  | some d => .ok (d, plan, applied)

/-- The tail of the confirmed branch after the base branch is resolved:
read the head commit, create the ref, commit/push, open the PR.  `ev` is the
trace accumulated so far. -/
def confirmAfterBase (env : CreateEnv) (ev : List Event) :
    Except String (String × String) × List Event :=
  match env.gh.branchSHA with
  | none => (.error "branch SHA missing", ev ++ [.ghGetBranchSHA])
  | some _sha =>
    let branch := "argus/fix-" ++ toString env.nowUnix
    if ¬ env.gh.createRefOk then
      (.error "github api call failed", ev ++ [.ghGetBranchSHA, .ghCreateRef])
    else if ¬ env.commitPushOk then
      (.error "git command failed", ev ++ [.ghGetBranchSHA, .ghCreateRef, .gitPush])
    else
      match env.gh.prHTMLURL with
      | none =>
        (.error "github api call failed",
         ev ++ [.ghGetBranchSHA, .ghCreateRef, .gitPush, .ghCreatePR])
      | some prURL =>
        (.ok (branch, prURL),
         ev ++ [.ghGetBranchSHA, .ghCreateRef, .gitPush, .ghCreatePR])

/-- The confirmed branch of `Service.Create` (authenticate, resolve base and
head, create the ref, commit/push, open the PR).  Returns `(branch, prURL)`
and the provider events it performed, in order. -/
def confirmFlow (req : Request) (env : CreateEnv) (url : String) :
    Except String (String × String) × List Event :=
  let g := env.gh
  if trimStr g.appID = "" || trimStr g.installationID = "" ||
      trimStr g.privateKeyPEM = "" then
    (.error "missing github app env vars", [.credsRead])
  else
    match ValidateGitHubAppIDs g.appID g.installationID with
    | .error e => (.error e, [.credsRead, .validateIDs])
    | .ok _ =>
      if ¬ g.jwtOk then (.error "invalid private key pem", [.credsRead, .validateIDs])
      else
        match InstallationToken (.ok "jwt") g.tokenResp with
        | .error e => (.error e, [.credsRead, .validateIDs, .tokenExchange])
        | .ok _token =>
          match ParseGitHubURL url with
          | .error e => (.error e, [.credsRead, .validateIDs, .tokenExchange])
          | .ok _ownerRepo =>
            let ev0 := [Event.credsRead, .validateIDs, .tokenExchange]
            if trimStr req.BaseBranch = "" then
              match g.defaultBranch with
              | none => (.error "default branch missing", ev0 ++ [.ghGetDefaultBranch])
              | some _b => confirmAfterBase env (ev0 ++ [.ghGetDefaultBranch])
            else confirmAfterBase env ev0

/-- Go `pr.Service.Create`: the full orchestrator.  The result is paired with
the trace of credential/provider/persistence events.  (The temporary working
directory bookkeeping has no observable effect in the model and the
`os.MkdirAll` failure is a host I/O failure outside it.) -/
def Create (req : Request) (env : CreateEnv) : Except String Response × List Event :=
  match env.repoURL with
  | none => (.error "repo not found", [])
  | some url =>
    if ¬ (hasPrefixStr (toLowerStr url.data) "https://github.com/".data &&
          hasSuffixStr (toLowerStr url.data) ".git".data) then
      (.error "only github.com .git repos are supported", [])
    else
      let findings := loadFindings env.findingRows
      if ¬ env.cloneOk then (.error "git clone failed", [])
      else
        match enforceSizeCap env.sizeBytes 350 with
        | .error e => (.error e, [])
        | .ok _ =>
          match GenerateDryRunDiff env findings req.MaxFixes with
          | .error e => (.error e, [])
          | .ok (d, _plan, _applied) =>
            let diffText := if trimStr d = "" then "# No safe automatic changes available\n" else d
            let confirmed : Except String (String × String × String) × List Event :=
              if req.Confirm then
                match confirmFlow req env url with
                | (.error e, ev) => (.error e, ev)
                | (.ok (branch, prURL), ev) => (.ok ("created", branch, prURL), ev)
              else (.ok ("dry-run", "", ""), [])
            match confirmed with
            | (.error e, ev) => (.error e, ev)
            | (.ok (mode, branch, prURL), ev) =>
              if env.recordOk then
                (.ok { Mode := mode, Diff := diffText, PRURL := prURL, Branch := branch },
                 ev ++ [.persistRecord mode branch prURL diffText])
              else (.error "record insert failed", ev)

/-! ### Invariants for the idempotence analysis (claim C4)

`fixLines L ls` says the line `redactContent` would choose in `L` (the
declared line first, else the first scan hit) is already its own redaction,
or that no line matches at all; rewriting is then a no-op or the identity. -/

def fixLines (L : List (List Char)) (ls : Int) : Prop :=
  ((0 < ls ∧ ls ≤ (L.length : Int)) ∧
    redactLine (L.getD (ls.toNat - 1) []) = some (L.getD (ls.toNat - 1) [])) ∨
  ((¬ (0 < ls ∧ ls ≤ (L.length : Int)) ∨
      redactLine (L.getD (ls.toNat - 1) []) = none) ∧
    (scanRedact L = none ∨ ∃ i, scanRedact L = some (i, L.getD i [])))

/-- Per-action invariant established by a first `ApplyPlan` pass: a
`GitIgnoreEnv` action now sees a `.gitignore` that lists `.env`; a
`SecretRedaction` action either fails the path check (and is then skipped
again) or sees a target whose redaction is a no-op or the identity. -/
def ActFix (root : String) (fs : FS) (a : FixAction) : Prop :=
  (a.Type' = FixGitIgnoreEnv →
    ∃ c, lookupFS fs (pathJoin root ".gitignore") = some c ∧
      envLinePresent c = true) ∧
  (a.Type' = FixSecretRedaction →
    (¬ hasPrefixStr (pathJoin root (pathClean a.FilePath)).data
        (root.data ++ ['/']) ∧ pathJoin root (pathClean a.FilePath) ≠ root) ∨
    ∀ c, lookupFS fs (pathJoin root (pathClean a.FilePath)) = some c →
      redactContent c.data a.LineStart = none ∨
      ('\r' ∉ c.data ∧ redactContent c.data a.LineStart = some c.data))

/-! ## Derived observations used by the theorems -/

/-- Number of `GitIgnoreEnv` actions in an action list. -/
def countGitIgnore (acts : List FixAction) : Nat :=
  acts.countP (fun a => a.Type' == FixGitIgnoreEnv)

/-- Whether an event is the persistence of a `RemediationRecord`. -/
def isPersist : Event → Bool
  | .persistRecord _ _ _ _ => true
  | _ => false

/-- Number of `RemediationRecord` persistence events in a trace. -/
def countPersist (ev : List Event) : Nat := ev.countP isPersist

/-- A sample request with `Confirm = false`. -/
def sampleReq : Request :=
  { RepoID := "r", Title := "", BaseBranch := "", Confirm := false,
    MaxFixes := 5, RequestedBy := "u" }

/-- A sample healthy environment. -/
def sampleEnv : CreateEnv :=
  { repoURL := some "https://github.com/o/r.git", findingRows := [],
    cloneOk := true, cloneFS := [], repoDir := "/w/repo", sizeBytes := 10,
    diffOf := fun _ => some "D",
    gh := { appID := "1", installationID := "2", privateKeyPEM := "k",
            jwtOk := true, tokenResp := some ⟨201, some "t"⟩,
            defaultBranch := some "main", branchSHA := some "abc",
            createRefOk := true, prHTMLURL := some "url" },
    commitPushOk := true, nowUnix := 7, recordOk := true }

/-- The sample environment with the repository lookup failing. -/
def sampleEnvNoRepo : CreateEnv := { sampleEnv with repoURL := none }

/-! # Theorems

Shared helper lemmas come first, then one theorem per claim (with its
witness / counterexample where required). -/

/-! ## Generic list lemmas: split/join, takeWhile, CRLF normalisation -/

lemma splitOnCh_ne_nil (sep : Char) (l : List Char) : splitOnCh sep l ≠ [] := by
  induction l with
  | nil => simp [splitOnCh]
  | cons c cs ih =>
    rw [splitOnCh]
    split
    · simp
    · rcases h : splitOnCh sep cs with _ | ⟨p, ps⟩
      · simp
      · simp

lemma splitOnCh_append_sep (sep : Char) (a b : List Char) :
    splitOnCh sep (a ++ sep :: b) = splitOnCh sep a ++ splitOnCh sep b := by
  induction a with
  | nil => simp [splitOnCh]
  | cons c cs ih =>
    by_cases hc : c = sep
    · subst hc
      simp only [List.cons_append, splitOnCh, List.append_eq, eq_self_iff_true, if_true]
      rw [ih]
    · simp only [List.cons_append, splitOnCh, List.append_eq, if_neg hc]
      rw [ih]
      rcases h : splitOnCh sep cs with _ | ⟨p, ps⟩
      · exact absurd h (splitOnCh_ne_nil sep cs)
      · simp

lemma splitOnCh_sep_not_mem (sep : Char) (l : List Char) :
    ∀ p ∈ splitOnCh sep l, sep ∉ p := by
  induction l with
  | nil =>
    intro p hp
    have hp' : p = [] := by simpa [splitOnCh] using hp
    subst hp'
    simp
  | cons c cs ih =>
    intro p hp
    rw [splitOnCh] at hp
    by_cases hc : c = sep
    · rw [if_pos hc] at hp
      rw [List.mem_cons] at hp
      rcases hp with hp | hp
      · simp [hp]
      · exact ih p hp
    · rw [if_neg hc] at hp
      rcases h : splitOnCh sep cs with _ | ⟨q, qs⟩
      · exact absurd h (splitOnCh_ne_nil sep cs)
      · rw [h] at hp
        rw [List.mem_cons] at hp
        rcases hp with hp | hp
        · subst hp
          intro hmem
          rw [List.mem_cons] at hmem
          rcases hmem with hmem | hmem
          · exact hc hmem.symm
          · exact ih q (by rw [h]; exact List.mem_cons_self _ _) hmem
        · exact ih p (by rw [h]; exact List.mem_cons_of_mem _ hp)

lemma splitOnCh_chars (sep : Char) (l : List Char) :
    ∀ p ∈ splitOnCh sep l, ∀ c ∈ p, c ∈ l := by
  induction l with
  | nil =>
    intro p hp c hc
    have hp' : p = [] := by simpa [splitOnCh] using hp
    subst hp'
    simp at hc
  | cons d cs ih =>
    intro p hp c hc
    rw [splitOnCh] at hp
    by_cases hd : d = sep
    · rw [if_pos hd] at hp
      rw [List.mem_cons] at hp
      rcases hp with hp | hp
      · subst hp; simp at hc
      · exact List.mem_cons_of_mem _ (ih p hp c hc)
    · rw [if_neg hd] at hp
      rcases h : splitOnCh sep cs with _ | ⟨q, qs⟩
      · exact absurd h (splitOnCh_ne_nil sep cs)
      · rw [h] at hp
        rw [List.mem_cons] at hp
        rcases hp with hp | hp
        · subst hp
          rw [List.mem_cons] at hc
          rcases hc with hc | hc
          · subst hc; exact List.mem_cons_self _ _
          · exact List.mem_cons_of_mem _
              (ih q (by rw [h]; exact List.mem_cons_self _ _) c hc)
        · exact List.mem_cons_of_mem _
            (ih p (by rw [h]; exact List.mem_cons_of_mem _ hp) c hc)

lemma splitOnCh_of_not_mem (sep : Char) (a : List Char) (h : sep ∉ a) :
    splitOnCh sep a = [a] := by
  induction a with
  | nil => rfl
  | cons c cs ih =>
    have hc : c ≠ sep := fun hh => h (hh ▸ List.mem_cons_self _ _)
    have hcs : sep ∉ cs := fun hh => h (List.mem_cons_of_mem _ hh)
    rw [splitOnCh, if_neg hc, ih hcs]

lemma joinCh_splitOnCh (sep : Char) (l : List Char) :
    joinCh sep (splitOnCh sep l) = l := by
  induction l with
  | nil => rfl
  | cons c cs ih =>
    rw [splitOnCh]
    by_cases hc : c = sep
    · rw [if_pos hc]
      rcases h : splitOnCh sep cs with _ | ⟨p, ps⟩
      · exact absurd h (splitOnCh_ne_nil sep cs)
      · rw [h] at ih
        subst hc
        simp only [joinCh]
        rw [ih]
        simp
    · rw [if_neg hc]
      rcases h : splitOnCh sep cs with _ | ⟨p, ps⟩
      · exact absurd h (splitOnCh_ne_nil sep cs)
      · rw [h] at ih
        rcases ps with _ | ⟨q, qs⟩
        · simp only [joinCh] at ih ⊢
          rw [ih]
        · simp only [joinCh] at ih ⊢
          rw [List.cons_append, ih]

lemma splitOnCh_joinCh (sep : Char) (ps : List (List Char))
    (hps : ∀ p ∈ ps, sep ∉ p) (hne : ps ≠ []) :
    splitOnCh sep (joinCh sep ps) = ps := by
  induction ps with
  | nil => exact absurd rfl hne
  | cons p qs ih =>
    rcases qs with _ | ⟨q, rs⟩
    · simp only [joinCh]
      exact splitOnCh_of_not_mem sep p (hps p (List.mem_cons_self _ _))
    · simp only [joinCh]
      rw [splitOnCh_append_sep,
        splitOnCh_of_not_mem sep p (hps p (List.mem_cons_self _ _))]
      rw [ih (fun r hr => hps r (List.mem_cons_of_mem _ hr)) (by simp)]
      rfl

lemma joinCh_chars (sep : Char) (ps : List (List Char)) :
    ∀ c ∈ joinCh sep ps, c = sep ∨ ∃ p ∈ ps, c ∈ p := by
  induction ps with
  | nil => intro c hc; simp [joinCh] at hc
  | cons p qs ih =>
    intro c hc
    rcases qs with _ | ⟨q, rs⟩
    · exact Or.inr ⟨p, List.mem_cons_self _ _, hc⟩
    · simp only [joinCh] at hc
      rcases List.mem_append.mp hc with hc | hc
      · exact Or.inr ⟨p, List.mem_cons_self _ _, hc⟩
      · rw [List.mem_cons] at hc
        rcases hc with hc | hc
        · exact Or.inl hc
        · rcases ih c hc with h | ⟨r, hr, hcr⟩
          · exact Or.inl h
          · exact Or.inr ⟨r, List.mem_cons_of_mem _ hr, hcr⟩

lemma takeWhile_dropWhile_append (p : Char → Bool) (xs ys : List Char)
    (h1 : ∀ a ∈ xs, p a = true)
    (h2 : ∀ y, ys.head? = some y → p y = false) :
    (xs ++ ys).takeWhile p = xs ∧ (xs ++ ys).dropWhile p = ys := by
  induction xs with
  | nil =>
    rcases ys with _ | ⟨y, ys'⟩
    · exact ⟨rfl, rfl⟩
    · have := h2 y rfl
      simp [List.takeWhile, List.dropWhile, this]
  | cons x xs' ih =>
    have hx : p x = true := h1 x (List.mem_cons_self _ _)
    have := ih (fun a ha => h1 a (List.mem_cons_of_mem _ ha))
    simp [List.takeWhile, List.dropWhile, hx, this.1, this.2]

lemma normCRLF_cons_of_not (c : Char) (rest : List Char)
    (h : ∀ r2, c = '\r' → rest = '\n' :: r2 → False) :
    normCRLF (c :: rest) = c :: normCRLF rest := by
  rw [normCRLF.eq_def]
  split
  · rename_i heq
    injection heq with h1 h2
    exact (h _ h1 h2).elim
  · rename_i heq
    injection heq with h1 h2
    subst h1; subst h2
    rfl
  · rename_i heq
    cases heq

lemma normCRLF_cons_ne (c : Char) (rest : List Char) (hc : c ≠ '\r') :
    normCRLF (c :: rest) = c :: normCRLF rest :=
  normCRLF_cons_of_not c rest (fun _ h1 _ => hc h1)

lemma normCRLF_crlf (rest : List Char) :
    normCRLF ('\r' :: '\n' :: rest) = '\n' :: normCRLF rest := rfl

lemma crOnly_crlf (rest : List Char) :
    crOnlyBeforeLF ('\r' :: '\n' :: rest) = crOnlyBeforeLF rest := rfl

lemma crOnly_cons_ne (c : Char) (rest : List Char) (hc : c ≠ '\r') :
    crOnlyBeforeLF (c :: rest) = crOnlyBeforeLF rest := by
  rw [crOnlyBeforeLF.eq_def]
  split
  · rename_i heq
    cases heq
  · rename_i heq
    injection heq with h1 h2
    exact absurd h1 hc
  · rename_i heq
    injection heq with h1 h2
    exact absurd h1 hc
  · rename_i heq
    injection heq with h1 h2
    subst h2
    rfl

lemma crOnly_cr_false (tail : List Char) (hne : ∀ r2, tail = '\n' :: r2 → False) :
    crOnlyBeforeLF ('\r' :: tail) = false := by
  rw [crOnlyBeforeLF.eq_def]
  split
  · rename_i heq; cases heq
  · rename_i heq
    injection heq with h1 h2
    exact (hne _ h2).elim
  · rfl
  · rename_i hcatch heq
    injection heq with h1 h2
    exact absurd h1 (by intro hh; exact (hcatch hh.symm))

lemma mem_normCRLF : ∀ (l : List Char), ∀ c ∈ normCRLF l, c ∈ l := by
  intro l
  induction l using normCRLF.induct with
  | case1 rest ih =>
    intro c hc
    rw [normCRLF_crlf] at hc
    rcases List.mem_cons.mp hc with h | h
    · subst h; exact List.mem_cons_of_mem _ (List.mem_cons_self _ _)
    · exact List.mem_cons_of_mem _ (List.mem_cons_of_mem _ (ih c h))
  | case2 c rest hne ih =>
    intro d hd
    rw [normCRLF_cons_of_not c rest hne] at hd
    rcases List.mem_cons.mp hd with h | h
    · subst h; exact List.mem_cons_self _ _
    · exact List.mem_cons_of_mem _ (ih d h)
  | case3 => intro c hc; exact hc

lemma normCRLF_of_no_cr : ∀ (l : List Char), '\r' ∉ l → normCRLF l = l := by
  intro l
  induction l using normCRLF.induct with
  | case1 rest ih =>
    intro h
    exact absurd (List.mem_cons_self _ _) h
  | case2 c rest hne ih =>
    intro h
    rw [normCRLF_cons_of_not c rest hne,
      ih (fun hh => h (List.mem_cons_of_mem _ hh))]
  | case3 => intro _; rfl

lemma no_cr_normCRLF_of_crOnly : ∀ (l : List Char),
    crOnlyBeforeLF l = true → '\r' ∉ normCRLF l := by
  intro l
  induction l using crOnlyBeforeLF.induct with
  | case1 => intro _ h; simp [normCRLF] at h
  | case2 rest ih =>
    intro hc h
    rw [crOnly_crlf] at hc
    rw [normCRLF_crlf] at h
    rcases List.mem_cons.mp h with h | h
    · cases h
    · exact ih hc h
  | case3 tail hne =>
    intro hc
    rw [crOnly_cr_false tail hne] at hc
    cases hc
  | case4 c rest hne1 hne2 ih =>
    intro hc h
    have hcr : c ≠ '\r' := fun hh => hne2 (hh ▸ rfl)
    rw [crOnly_cons_ne c rest hcr] at hc
    rw [normCRLF_cons_ne c rest hcr] at h
    rcases List.mem_cons.mp h with h | h
    · exact hcr h.symm
    · exact ih hc h

lemma crOnly_of_no_cr : ∀ (l : List Char), '\r' ∉ l → crOnlyBeforeLF l = true := by
  intro l
  induction l with
  | nil => intro _; rfl
  | cons c rest ih =>
    intro h
    have hc : c ≠ '\r' := fun hh => h (hh ▸ List.mem_cons_self _ _)
    rw [crOnly_cons_ne c rest hc]
    exact ih (fun hh => h (List.mem_cons_of_mem _ hh))

lemma crOnly_append : ∀ (a b : List Char), crOnlyBeforeLF a = true →
    crOnlyBeforeLF b = true → crOnlyBeforeLF (a ++ b) = true := by
  intro a
  induction a using crOnlyBeforeLF.induct with
  | case1 => intro b _ hb; exact hb
  | case2 rest ih =>
    intro b ha hb
    rw [crOnly_crlf] at ha
    rw [List.cons_append, List.cons_append, crOnly_crlf]
    exact ih b ha hb
  | case3 tail hne =>
    intro b ha hb
    rw [crOnly_cr_false tail hne] at ha
    cases ha
  | case4 c rest hne1 hne2 ih =>
    intro b ha hb
    have hcr : c ≠ '\r' := fun hh => hne2 (hh ▸ rfl)
    rw [crOnly_cons_ne c rest hcr] at ha
    rw [List.cons_append, crOnly_cons_ne c _ hcr]
    exact ih b ha hb

lemma normCRLF_append_crOnly : ∀ (a b : List Char), crOnlyBeforeLF a = true →
    normCRLF (a ++ b) = normCRLF a ++ normCRLF b := by
  intro a
  induction a using crOnlyBeforeLF.induct with
  | case1 => intro b _; rfl
  | case2 rest ih =>
    intro b ha
    rw [crOnly_crlf] at ha
    rw [List.cons_append, List.cons_append, normCRLF_crlf, normCRLF_crlf,
      ih b ha, List.cons_append]
  | case3 tail hne =>
    intro b ha
    rw [crOnly_cr_false tail hne] at ha
    cases ha
  | case4 c rest hne1 hne2 ih =>
    intro b ha
    have hcr : c ≠ '\r' := fun hh => hne2 (hh ▸ rfl)
    rw [crOnly_cons_ne c rest hcr] at ha
    rw [List.cons_append, normCRLF_cons_ne c _ hcr, normCRLF_cons_ne c rest hcr,
      ih b ha, List.cons_append]

/-! ## File-system and `List.set` helpers -/

lemma lookupFS_setFS_self (fs : FS) (p v : String) :
    lookupFS (setFS fs p v) p = some v := by
  induction fs with
  | nil => simp [setFS, lookupFS]
  | cons e rest ih =>
    rcases e with ⟨q, w⟩
    by_cases h : q = p
    · rw [setFS, if_pos h, lookupFS, if_pos h]
    · rw [setFS, if_neg h, lookupFS, if_neg h]
      exact ih

lemma lookupFS_setFS_ne (fs : FS) (p v : String) (q : String) (h : q ≠ p) :
    lookupFS (setFS fs p v) q = lookupFS fs q := by
  induction fs with
  | nil =>
    have hpq : ¬ p = q := fun hh => h hh.symm
    simp [setFS, lookupFS, hpq]
  | cons e rest ih =>
    rcases e with ⟨r, w⟩
    by_cases hr : r = p
    · rw [setFS, if_pos hr, lookupFS, lookupFS]
      subst hr
      rw [if_neg (fun hh => h hh.symm), if_neg (fun hh => h hh.symm)]
    · rw [setFS, if_neg hr, lookupFS, lookupFS]
      by_cases hq : r = q
      · rw [if_pos hq, if_pos hq]
      · rw [if_neg hq, if_neg hq]
        exact ih

lemma setFS_same (fs : FS) (p v : String) (h : lookupFS fs p = some v) :
    setFS fs p v = fs := by
  induction fs with
  | nil => simp [lookupFS] at h
  | cons e rest ih =>
    rcases e with ⟨q, w⟩
    by_cases hq : q = p
    · rw [lookupFS, if_pos hq] at h
      injection h with h
      rw [setFS, if_pos hq, h]
    · rw [lookupFS, if_neg hq] at h
      rw [setFS, if_neg hq, ih h]

lemma lookupFS_mem (fs : FS) (p c : String) (h : lookupFS fs p = some c) :
    (p, c) ∈ fs := by
  induction fs with
  | nil => simp [lookupFS] at h
  | cons e rest ih =>
    rcases e with ⟨q, w⟩
    rw [lookupFS] at h
    by_cases hq : q = p
    · rw [if_pos hq] at h
      injection h with h
      subst hq; subst h
      exact List.mem_cons_self _ _
    · rw [if_neg hq] at h
      exact List.mem_cons_of_mem _ (ih h)

lemma getD_set_self (L : List (List Char)) (i : Nat) (v : List Char)
    (h : i < L.length) : (L.set i v).getD i [] = v := by
  induction L generalizing i with
  | nil => simp at h
  | cons x xs ih =>
    rcases i with _ | j
    · rw [List.set_cons_zero, List.getD_cons_zero]
    · rw [List.set_cons_succ, List.getD_cons_succ]
      exact ih j (by simpa using h)

lemma getD_set_ne (L : List (List Char)) (i j : Nat) (v : List Char)
    (h : i ≠ j) : (L.set i v).getD j [] = L.getD j [] := by
  induction L generalizing i j with
  | nil => rw [List.set]
  | cons x xs ih =>
    rcases i with _ | i' <;> rcases j with _ | j'
    · exact absurd rfl h
    · rw [List.set_cons_zero, List.getD_cons_succ, List.getD_cons_succ]
    · rw [List.set_cons_succ, List.getD_cons_zero, List.getD_cons_zero]
    · rw [List.set_cons_succ, List.getD_cons_succ, List.getD_cons_succ]
      exact ih i' j' (fun hh => h (by rw [hh]))

lemma set_getD_self (L : List (List Char)) (i : Nat)
    (h : i < L.length) : L.set i (L.getD i []) = L := by
  induction L generalizing i with
  | nil => simp at h
  | cons x xs ih =>
    rcases i with _ | j
    · rw [List.getD_cons_zero, List.set_cons_zero]
    · rw [List.getD_cons_succ, List.set_cons_succ]
      rw [ih j (by simpa using h)]

lemma mem_set_of_ne (L : List (List Char)) (i : Nat) (v w : List Char)
    (hw : w ∈ L) (hne : w ≠ L.getD i []) : w ∈ L.set i v := by
  induction L generalizing i with
  | nil => simp at hw
  | cons x xs ih =>
    rcases i with _ | j
    · rcases List.mem_cons.mp hw with h | h
      · exact absurd h hne
      · exact List.mem_cons_of_mem _ h
    · rcases List.mem_cons.mp hw with h | h
      · subst h; exact List.mem_cons_self _ _
      · exact List.mem_cons_of_mem _ (ih j h hne)

/-! ## Matcher lemmas (claims C4, C5, C10)

The structural facts about `matchSecretAssign` / `redactLine` that back the
frame and idempotence claims: a successful match decomposes the line, and the
replacement written by `redactLine` is itself matched back to itself. -/

lemma blank_not_nameChar (c : Char) (h : isBlank c = true) : isNameChar c = false := by
  rw [isBlank] at h
  simp only [Bool.or_eq_true, decide_eq_true_eq] at h
  rcases h with h | h <;> subst h <;> decide

lemma nameChar_not_blank (c : Char) (h : isNameChar c = true) : isBlank c = false := by
  by_cases hb : isBlank c = true
  · rw [blank_not_nameChar c hb] at h; cases h
  · simpa using hb

lemma sepChar_not_blank (c : Char) (h : c = ':' ∨ c = '=') : isBlank c = false := by
  rcases h with h | h <;> subst h <;> decide

lemma sepChar_not_nameChar (c : Char) (h : c = ':' ∨ c = '=') : isNameChar c = false := by
  rcases h with h | h <;> subst h <;> decide

/-- A successful `parseSep` with an all-blank separator (the `[ \t]+`
branch). -/
lemma parseSep_blank_prefix (ws1 z : List Char)
    (hws : ∀ a ∈ ws1, isBlank a = true) (hz : z.head? = some '"')
    (hne : ws1 ≠ []) : parseSep (ws1 ++ z) = some (ws1, z) := by
  rcases z with _ | ⟨z0, z'⟩
  · cases hz
  · injection hz with hz
    subst hz
    have hz0 : isBlank '"' = false := by decide
    obtain ⟨ht, hd⟩ := takeWhile_dropWhile_append isBlank ws1 ('"' :: z') hws
      (by intro y hy; injection hy with hy; subst hy; exact hz0)
    rw [parseSep]
    rw [ht, hd]
    have h1 : (decide ('"' = ':') || decide ('"' = '=')) = false := by decide
    simp only [h1, Bool.false_eq_true, if_false]
    rw [if_pos hne]

/-- A successful `parseSep` through the `[ \t]*[:=][ \t]*` branch. -/
lemma parseSep_assign (ws1 ws2 z : List Char) (c : Char)
    (hws1 : ∀ a ∈ ws1, isBlank a = true) (hws2 : ∀ a ∈ ws2, isBlank a = true)
    (hc : c = ':' ∨ c = '=') (hz : z.head? = some '"') :
    parseSep (ws1 ++ c :: ws2 ++ z) = some (ws1 ++ c :: ws2, z) := by
  rcases z with _ | ⟨z0, z'⟩
  · cases hz
  · injection hz with hz
    subst hz
    obtain ⟨ht, hd⟩ := takeWhile_dropWhile_append isBlank ws1 (c :: (ws2 ++ '"' :: z'))
      hws1 (by
        intro y hy
        injection hy with hy
        subst hy
        exact sepChar_not_blank c hc)
    obtain ⟨ht2, hd2⟩ := takeWhile_dropWhile_append isBlank ws2 ('"' :: z') hws2
      (by intro y hy; injection hy with hy; subst hy; decide)
    rw [parseSep]
    have hrw : ws1 ++ c :: ws2 ++ ('"' :: z') = ws1 ++ (c :: (ws2 ++ '"' :: z')) := by
      simp
    rw [hrw, ht, hd]
    have hcb : (decide (c = ':') || decide (c = '=')) = true := by
      rcases hc with h | h <;> subst h <;> decide
    simp only [hcb, if_true]
    rw [ht2, hd2]

/-- Characterisation of a successful `parseSep`: the separator is consumed
from the front, is non-empty, starts with a non-name character, and can be
re-parsed in front of any quoted value. -/
lemma parseSep_some (l s r : List Char) (h : parseSep l = some (s, r)) :
    l = s ++ r ∧ s ≠ [] ∧
    (∀ x, s.head? = some x → isNameChar x = false) ∧
    (∀ z, z.head? = some '"' → parseSep (s ++ z) = some (s, z)) := by
  have hws : ∀ a ∈ l.takeWhile isBlank, isBlank a = true :=
    fun a ha => List.mem_takeWhile_imp ha
  have hdecomp : l.takeWhile isBlank ++ l.dropWhile isBlank = l :=
    List.takeWhile_append_dropWhile isBlank l
  rw [parseSep] at h
  rcases hdw : l.dropWhile isBlank with _ | ⟨c, r'⟩
  · rw [hdw] at h
    split at h
    · rename_i heq; cases heq
    · split at h
      · rename_i hne
        injection h with h
        injection h with h1 h2
        subst h1; subst h2
        refine ⟨?_, hne, ?_, ?_⟩
        · rw [List.append_nil]
          conv_lhs => rw [← hdecomp, hdw]
          rw [List.append_nil]
        · intro x hx
          rcases hse : l.takeWhile isBlank with _ | ⟨s0, s'⟩
          · rw [hse] at hx; cases hx
          · rw [hse] at hx
            injection hx with hx
            subst hx
            exact blank_not_nameChar _ (hws _ (by rw [hse]; exact List.mem_cons_self _ _))
        · intro z hz
          exact parseSep_blank_prefix _ z hws hz hne
      · cases h
  · rw [hdw] at h
    split at h
    · rename_i c1 r1 heq
      injection heq with heqc heqr
      subst heqc
      subst heqr
      split at h
      · rename_i hc
        injection h with h
        injection h with h1 h2
        have hcor : c = ':' ∨ c = '=' := by
          rcases Bool.or_eq_true_iff.mp hc with hx | hx
          · exact Or.inl (by simpa using hx)
          · exact Or.inr (by simpa using hx)
        have hws2 : ∀ a ∈ r'.takeWhile isBlank, isBlank a = true :=
          fun a ha => List.mem_takeWhile_imp ha
        have hr' : r'.takeWhile isBlank ++ r'.dropWhile isBlank = r' :=
          List.takeWhile_append_dropWhile isBlank r'
        subst h1; subst h2
        refine ⟨?_, by simp, ?_, ?_⟩
        · conv_lhs => rw [← hdecomp, hdw, ← hr']
          simp
        · intro x hx
          rcases hws1e : l.takeWhile isBlank with _ | ⟨w0, ws'⟩
          · rw [hws1e] at hx
            simp only [List.nil_append, List.head?_cons] at hx
            injection hx with hx
            subst hx
            exact sepChar_not_nameChar c hcor
          · rw [hws1e] at hx
            simp only [List.cons_append, List.head?_cons] at hx
            injection hx with hx
            subst hx
            exact blank_not_nameChar _ (hws _ (by rw [hws1e]; exact List.mem_cons_self _ _))
        · intro z hz
          have := parseSep_assign (l.takeWhile isBlank) (r'.takeWhile isBlank) z c
            hws hws2 hcor hz
          simpa using this
      · split at h
        · rename_i hne
          injection h with h
          injection h with h1 h2
          subst h1; subst h2
          refine ⟨?_, hne, ?_, ?_⟩
          · conv_lhs => rw [← hdecomp, hdw]
          · intro x hx
            rcases hse : l.takeWhile isBlank with _ | ⟨s0, s'⟩
            · rw [hse] at hx; cases hx
            · rw [hse] at hx
              injection hx with hx
              subst hx
              exact blank_not_nameChar _ (hws _ (by rw [hse]; exact List.mem_cons_self _ _))
          · intro z hz
            exact parseSep_blank_prefix _ z hws hz hne
        · cases h
    · rename_i heq; cases heq

/-- A successful `parseValue` consumes the value from the front. -/
lemma parseValue_some (l v r : List Char) (h : parseValue l = some (v, r)) :
    l = v ++ r := by
  rw [parseValue.eq_def] at h
  split at h
  · rename_i x0 r0
    have hdecomp := List.takeWhile_append_dropWhile (fun c => decide (c ≠ '"')) r0
    split at h
    · rename_i rest2 heq2
      injection h with h
      injection h with h1 h2
      subst h1; subst h2
      conv_lhs => rw [← hdecomp, heq2]
      simp
    · cases h
  · rename_i x0 r0
    have hdecomp := List.takeWhile_append_dropWhile (fun c => decide (c ≠ '\'')) r0
    split at h
    · rename_i rest2 heq2
      injection h with h
      injection h with h1 h2
      subst h1; subst h2
      conv_lhs => rw [← hdecomp, heq2]
      simp
    · cases h
  · have hdecomp := List.takeWhile_append_dropWhile isBareChar l
    split at h
    · injection h with h
      injection h with h1 h2
      subst h1; subst h2
      exact hdecomp.symm
    · cases h

/-- The fixed placeholder re-parses as a quoted value. -/
lemma parseValue_placeholder (tail : List Char) :
    parseValue (placeholder ++ tail) = some (placeholder, tail) := by
  have hform : placeholder ++ tail =
      '"' :: ((['$', '\x7b'] ++ "SECRET_FROM_ENV".data ++ ['\x7d']) ++ '"' :: tail) := by
    simp [placeholder]
  rw [hform, parseValue]
  obtain ⟨ht, hd⟩ := takeWhile_dropWhile_append (fun c => decide (c ≠ '"'))
    (['$', '\x7b'] ++ "SECRET_FROM_ENV".data ++ ['\x7d']) ('"' :: tail)
    (by decide)
    (by intro y hy; injection hy with hy; subst hy; decide)
  rw [ht, hd]
  rfl

lemma hasSecretKeyword_nil : hasSecretKeyword [] = false := by decide

/-- Characterisation of a successful full-line match: the line decomposes as
`group1 ++ group3 ++ group4` with `group1 = blanks ++ name-run ++ separator`,
and each part carries the class facts needed to re-match a rewritten line. -/
lemma matchSecretAssign_some (l m1 v m4 : List Char)
    (h : matchSecretAssign l = some (m1, v, m4)) :
    ∃ ws run sep,
      m1 = ws ++ run ++ sep ∧
      l = m1 ++ v ++ m4 ∧
      (∀ a ∈ ws, isBlank a = true) ∧
      (∀ a ∈ run, isNameChar a = true) ∧
      run ≠ [] ∧
      hasSecretKeyword run = true ∧
      sep ≠ [] ∧
      (∀ x, sep.head? = some x → isNameChar x = false) ∧
      (∀ z, z.head? = some '"' → parseSep (sep ++ z) = some (sep, z)) := by
  rw [matchSecretAssign] at h
  split at h
  · rename_i hkw
    split at h
    · cases h
    · rename_i sep0 rest3 heq
      split at h
      · cases h
      · rename_i v0 rest4 heq2
        injection h with h
        injection h with h1 h23
        injection h23 with h2 h3
        obtain ⟨hsd, hsne, hshead, hsrefit⟩ := parseSep_some _ _ _ heq
        have hvd := parseValue_some _ _ _ heq2
        have hl1 : l.takeWhile isBlank ++ l.dropWhile isBlank = l :=
          List.takeWhile_append_dropWhile isBlank l
        have hl2 : (l.dropWhile isBlank).takeWhile isNameChar ++
            (l.dropWhile isBlank).dropWhile isNameChar = l.dropWhile isBlank :=
          List.takeWhile_append_dropWhile isNameChar (l.dropWhile isBlank)
        refine ⟨l.takeWhile isBlank, (l.dropWhile isBlank).takeWhile isNameChar,
          sep0, h1.symm, ?_, fun a ha => List.mem_takeWhile_imp ha,
          fun a ha => List.mem_takeWhile_imp ha, ?_, hkw, hsne, hshead, hsrefit⟩
        · rw [← h1, ← h2, ← h3] at *
          conv_lhs => rw [← hl1, ← hl2, hsd, hvd]
          simp
        · intro hrun
          rw [hrun, hasSecretKeyword_nil] at hkw
          cases hkw
  · cases h

/-- Re-match a line of the shape produced by `redactLine`. -/
lemma matchSecretAssign_build (ws run sep tail : List Char)
    (hws : ∀ a ∈ ws, isBlank a = true)
    (hrun : ∀ a ∈ run, isNameChar a = true)
    (hrun0 : run ≠ [])
    (hkw : hasSecretKeyword run = true)
    (hsep0 : sep ≠ [])
    (hsephead : ∀ x, sep.head? = some x → isNameChar x = false)
    (hpsep : parseSep (sep ++ (placeholder ++ tail)) = some (sep, placeholder ++ tail)) :
    matchSecretAssign (ws ++ (run ++ (sep ++ (placeholder ++ tail)))) =
      some (ws ++ run ++ sep, placeholder, tail) := by
  rcases hrune : run with _ | ⟨r0, run'⟩
  · exact absurd hrune hrun0
  · rcases hsepe : sep with _ | ⟨s0, sep'⟩
    · exact absurd hsepe hsep0
    · have hr0 : isNameChar r0 = true := hrun r0 (by rw [hrune]; exact List.mem_cons_self _ _)
      have hs0 : isNameChar s0 = false := hsephead s0 (by rw [hsepe]; rfl)
      rw [← hrune, ← hsepe]
      obtain ⟨ht1, hd1⟩ := takeWhile_dropWhile_append isBlank ws
        (run ++ (sep ++ (placeholder ++ tail))) hws
        (by
          intro y hy
          rw [hrune] at hy
          simp only [List.cons_append, List.head?_cons] at hy
          injection hy with hy
          subst hy
          exact nameChar_not_blank _ hr0)
      obtain ⟨ht2, hd2⟩ := takeWhile_dropWhile_append isNameChar run
        (sep ++ (placeholder ++ tail)) hrun
        (by
          intro y hy
          rw [hsepe] at hy
          simp only [List.cons_append, List.head?_cons] at hy
          injection hy with hy
          subst hy
          exact hs0)
      rw [matchSecretAssign]
      rw [ht1, hd1, ht2, hd2, hkw]
      simp only [if_true]
      rw [hpsep]
      simp only [parseValue_placeholder tail]

/-- `redactLine` output chars come from the input line or the placeholder. -/
lemma redactLine_chars (l r : List Char) (h : redactLine l = some r) :
    ∀ c ∈ r, c ∈ l ∨ c ∈ placeholder := by
  rw [redactLine] at h
  rcases hm : matchSecretAssign l with _ | ⟨⟨m1, v, m4⟩⟩
  · rw [hm] at h; cases h
  · rw [hm] at h
    injection h with h
    subst h
    obtain ⟨ws, run, sep, hm1, hl, _⟩ := matchSecretAssign_some l m1 v m4 hm
    intro c hc
    rcases List.mem_append.mp hc with hc | hc
    · rcases List.mem_append.mp hc with hc | hc
      · exact Or.inl (by rw [hl]; simp [hc])
      · exact Or.inr hc
    · exact Or.inl (by rw [hl]; simp [hc])

/-- The central stability fact: a line written by `redactLine` is matched
again and rewritten to itself. -/
lemma redactLine_fixpoint (l r : List Char) (h : redactLine l = some r) :
    redactLine r = some r := by
  rw [redactLine] at h
  rcases hm : matchSecretAssign l with _ | ⟨⟨m1, v, m4⟩⟩
  · rw [hm] at h; cases h
  · rw [hm] at h
    injection h with h
    subst h
    obtain ⟨ws, run, sep, hm1, hl, hws, hrun, hrun0, hkw, hsep0, hshead, hsrefit⟩ :=
      matchSecretAssign_some l m1 v m4 hm
    have hre : matchSecretAssign (ws ++ (run ++ (sep ++ (placeholder ++ m4)))) =
        some (ws ++ run ++ sep, placeholder, m4) :=
      matchSecretAssign_build ws run sep m4 hws hrun hrun0 hkw hsep0 hshead
        (hsrefit (placeholder ++ m4) rfl)
    rw [redactLine]
    have hform : m1 ++ placeholder ++ m4 = ws ++ (run ++ (sep ++ (placeholder ++ m4))) := by
      rw [hm1]; simp
    rw [hform, hre]
    simp [hm1]

lemma dropWhile_head_not (p : Char → Bool) (l : List Char) :
    ∀ x, (l.dropWhile p).head? = some x → p x = false := by
  induction l with
  | nil => intro x hx; cases hx
  | cons c cs ih =>
    intro x hx
    rw [List.dropWhile_cons] at hx
    split at hx
    · exact ih x hx
    · injection hx with hx
      subst hx
      rename_i hc
      simpa using hc

lemma goSpace_not_nameChar (c : Char) (h : isGoSpace c = true) :
    isNameChar c = false := by
  rw [isGoSpace] at h
  simp only [Bool.or_eq_true, decide_eq_true_eq] at h
  rcases h with ((((((h | h) | h) | h) | h) | h) | h) | h <;> subst h <;> decide

/-- A full-line match needs a secret keyword in the leading name run. -/
lemma matchSecretAssign_none_of_no_keyword (l : List Char)
    (hkw : hasSecretKeyword ((l.dropWhile isBlank).takeWhile isNameChar) = false) :
    matchSecretAssign l = none := by
  rw [matchSecretAssign, hkw]
  simp

/-- A line whose trimmed content is exactly `.env` (such as the line written
by `ensureEnvIgnored`) never matches the redaction pattern. -/
lemma redactLine_none_of_trim_env (l : List Char) (h : trimSpace l = ".env".data) :
    redactLine l = none := by
  have hga : ∀ a ∈ l.takeWhile isGoSpace, isGoSpace a = true :=
    fun a ha => List.mem_takeWhile_imp ha
  have hl : l.takeWhile isGoSpace ++ l.dropWhile isGoSpace = l :=
    List.takeWhile_append_dropWhile isGoSpace l
  rw [trimSpace] at h
  have hm : ((l.dropWhile isGoSpace).reverse.dropWhile isGoSpace) = ".env".data.reverse := by
    rw [← h, List.reverse_reverse]
  have hl1 : l.dropWhile isGoSpace =
      ".env".data ++ ((l.dropWhile isGoSpace).reverse.takeWhile isGoSpace).reverse := by
    conv_lhs => rw [← List.reverse_reverse (l.dropWhile isGoSpace)]
    conv_lhs => rw [← List.takeWhile_append_dropWhile isGoSpace (l.dropWhile isGoSpace).reverse]
    rw [hm]
    rw [List.reverse_append, List.reverse_reverse]
  have hb : ∀ a ∈ ((l.dropWhile isGoSpace).reverse.takeWhile isGoSpace).reverse,
      isGoSpace a = true := by
    intro a ha
    exact List.mem_takeWhile_imp (List.mem_reverse.mp ha)
  -- write l = a ++ ".env" ++ b
  set b := ((l.dropWhile isGoSpace).reverse.takeWhile isGoSpace).reverse with hbdef
  set a := l.takeWhile isGoSpace with hadef
  have hldecomp : l = a ++ (".env".data ++ b) := by
    conv_lhs => rw [← hl, hl1]
  have hab : a.takeWhile isBlank ++ a.dropWhile isBlank = a :=
    List.takeWhile_append_dropWhile isBlank a
  have habl : ∀ x ∈ a.takeWhile isBlank, isBlank x = true :=
    fun x hx => List.mem_takeWhile_imp hx
  rw [redactLine]
  rcases hag : a.dropWhile isBlank with _ | ⟨g, ag'⟩
  · -- the leading whitespace is all blanks
    have haall : ∀ x ∈ a, isBlank x = true := by
      intro x hx
      rw [← hab, hag, List.append_nil] at hx
      exact habl x hx
    obtain ⟨ht1, hd1⟩ := takeWhile_dropWhile_append isBlank a (".env".data ++ b) haall
      (by
        intro y hy
        simp only [List.cons_append, List.head?_cons] at hy
        injection hy with hy
        subst hy
        decide)
    have hrun : (".env".data ++ b).takeWhile isNameChar = ".env".data := by
      rcases hbe : b with _ | ⟨b0, b'⟩
      · rw [List.append_nil]
        decide
      · have hb0 : isNameChar b0 = false :=
          goSpace_not_nameChar b0 (hb b0 (by rw [hbe]; exact List.mem_cons_self _ _))
        obtain ⟨ht2, _⟩ := takeWhile_dropWhile_append isNameChar ".env".data (b0 :: b')
          (by decide)
          (by
            intro y hy
            injection hy with hy
            subst hy
            exact hb0)
        exact ht2
    have hnone : matchSecretAssign l = none := by
      apply matchSecretAssign_none_of_no_keyword
      rw [hldecomp, hd1, hrun]
      decide
    rw [hnone]
  · -- the leading whitespace contains a non-blank Go space
    have hgsp : isGoSpace g = true := by
      have hmem : g ∈ a := by
        rw [← hab, hag]
        exact List.mem_append.mpr (Or.inr (List.mem_cons_self _ _))
      exact hga g hmem
    have hgnb : isBlank g = false := by
      have := dropWhile_head_not isBlank a g (by rw [hag]; rfl)
      exact this
    obtain ⟨ht1, hd1⟩ := takeWhile_dropWhile_append isBlank (a.takeWhile isBlank)
      (g :: (ag' ++ (".env".data ++ b))) habl
      (by
        intro y hy
        injection hy with hy
        subst hy
        exact hgnb)
    have hldecomp2 : l = a.takeWhile isBlank ++ (g :: (ag' ++ (".env".data ++ b))) := by
      rw [hldecomp]
      conv_lhs => rw [← hab, hag]
      simp
    have hrunnil : (g :: (ag' ++ (".env".data ++ b))).takeWhile isNameChar = [] := by
      rw [List.takeWhile_cons, goSpace_not_nameChar g hgsp]
      simp
    have hnone : matchSecretAssign l = none := by
      apply matchSecretAssign_none_of_no_keyword
      rw [hldecomp2, hd1, hrunnil]
      decide
    rw [hnone]

/-! ## Scan and content-level redaction lemmas -/

lemma scanRedact_some (L : List (List Char)) : ∀ (i : Nat) (r : List Char),
    scanRedact L = some (i, r) →
    i < L.length ∧ redactLine (L.getD i []) = some r ∧
    ∀ j, j < i → redactLine (L.getD j []) = none := by
  induction L with
  | nil => intro i r h; cases h
  | cons l ls ih =>
    intro i r h
    rw [scanRedact] at h
    rcases hr : redactLine l with _ | ⟨r0⟩
    · rw [hr] at h
      rcases hs : scanRedact ls with _ | ⟨⟨i0, rr⟩⟩
      · rw [hs] at h; cases h
      · rw [hs] at h
        simp only [Option.map_some'] at h
        injection h with h
        have h1 : i0 + 1 = i := congrArg Prod.fst h
        have h2 : rr = r := congrArg Prod.snd h
        subst h1; subst h2
        obtain ⟨hlt, hred, hbef⟩ := ih i0 rr hs
        refine ⟨by simpa using Nat.succ_lt_succ hlt, ?_, ?_⟩
        · rw [List.getD_cons_succ]; exact hred
        · intro j hj
          rcases j with _ | j'
          · rw [List.getD_cons_zero]; exact hr
          · rw [List.getD_cons_succ]
            exact hbef j' (Nat.lt_of_succ_lt_succ hj)
    · rw [hr] at h
      injection h with h
      have h1 : 0 = i := congrArg Prod.fst h
      have h2 : r0 = r := congrArg Prod.snd h
      subst h1; subst h2
      refine ⟨Nat.succ_pos _, ?_, ?_⟩
      · rw [List.getD_cons_zero]; exact hr
      · intro j hj
        exact absurd hj (Nat.not_lt_zero j)

lemma scanRedact_build (L : List (List Char)) : ∀ (i : Nat) (r : List Char),
    i < L.length → redactLine (L.getD i []) = some r →
    (∀ j, j < i → redactLine (L.getD j []) = none) →
    scanRedact L = some (i, r) := by
  induction L with
  | nil => intro i r hlt; simp at hlt
  | cons l ls ih =>
    intro i r hlt hred hbef
    rw [scanRedact]
    rcases i with _ | i'
    · rw [List.getD_cons_zero] at hred
      rw [hred]
    · have h0 : redactLine l = none := by
        have := hbef 0 (Nat.succ_pos _)
        rwa [List.getD_cons_zero] at this
      rw [h0]
      rw [List.getD_cons_succ] at hred
      have hbef' : ∀ j, j < i' → redactLine (ls.getD j []) = none := by
        intro j hj
        have := hbef (j + 1) (Nat.succ_lt_succ hj)
        rwa [List.getD_cons_succ] at this
      rw [ih i' r (by simpa using hlt) hred hbef']
      rfl

lemma scanRedact_none_iff (L : List (List Char)) :
    scanRedact L = none ↔ ∀ l ∈ L, redactLine l = none := by
  induction L with
  | nil => simp [scanRedact]
  | cons x xs ih =>
    rw [scanRedact]
    rcases hr : redactLine x with _ | ⟨r0⟩
    · rcases hs : scanRedact xs with _ | ⟨⟨i0, rr⟩⟩
      · simp only [hs, Option.map_none']
        constructor
        · intro _ l hl
          rcases List.mem_cons.mp hl with hl | hl
          · subst hl; exact hr
          · exact (ih.mp hs) l hl
        · intro _; trivial
      · simp only [hs, Option.map_some']
        constructor
        · intro hcontra; cases hcontra
        · intro hall
          have := ih.mpr (fun l hl => hall l (List.mem_cons_of_mem _ hl))
          rw [this] at hs
          cases hs
    · constructor
      · intro hcontra; cases hcontra
      · intro hall
        have hx := hall x (List.mem_cons_self _ _)
        rw [hx] at hr
        cases hr

/-- Characterisation of a successful `redactContent`: exactly one line — the
declared line if it matches, otherwise the first matching line — is replaced
by its `redactLine` image, and the file is re-joined with LF. -/
lemma redactContent_some (content : List Char) (ls : Int) (out : List Char)
    (h : redactContent content ls = some out) :
    ∃ i repl,
      i < (splitNL (normCRLF content)).length ∧
      redactLine ((splitNL (normCRLF content)).getD i []) = some repl ∧
      out = joinNL ((splitNL (normCRLF content)).set i repl) ∧
      (((0 < ls ∧ ls ≤ ((splitNL (normCRLF content)).length : Int)) ∧
        redactLine ((splitNL (normCRLF content)).getD (ls.toNat - 1) []) ≠ none) →
          i = ls.toNat - 1) ∧
      ((¬ ((0 < ls ∧ ls ≤ ((splitNL (normCRLF content)).length : Int)) ∧
        redactLine ((splitNL (normCRLF content)).getD (ls.toNat - 1) []) ≠ none)) →
          scanRedact (splitNL (normCRLF content)) = some (i, repl)) := by
  rw [redactContent] at h
  split at h
  · rename_i hvalid
    have hlt : ls.toNat - 1 < (splitNL (normCRLF content)).length := by
      obtain ⟨h1, h2⟩ := hvalid
      omega
    rcases hd : redactLine ((splitNL (normCRLF content)).getD (ls.toNat - 1) []) with _ | ⟨repl⟩
    · rw [hd, redactScan] at h
      rcases hs : scanRedact (splitNL (normCRLF content)) with _ | ⟨⟨i, rr⟩⟩
      · rw [hs] at h; cases h
      · rw [hs] at h
        injection h with h
        obtain ⟨hlt2, hred, _⟩ := scanRedact_some _ _ _ hs
        refine ⟨i, rr, hlt2, hred, h.symm, ?_, fun _ => rfl⟩
        intro hc
        exact absurd rfl hc.2
    · rw [hd] at h
      injection h with h
      refine ⟨ls.toNat - 1, repl, hlt, hd, h.symm, fun _ => rfl, ?_⟩
      intro hc
      exact absurd ⟨hvalid, Option.some_ne_none repl⟩ hc
  · rename_i hvalid
    rw [redactScan] at h
    rcases hs : scanRedact (splitNL (normCRLF content)) with _ | ⟨⟨i, rr⟩⟩
    · rw [hs] at h; cases h
    · rw [hs] at h
      injection h with h
      obtain ⟨hlt2, hred, _⟩ := scanRedact_some _ _ _ hs
      refine ⟨i, rr, hlt2, hred, h.symm, ?_, fun _ => rfl⟩
      intro hc
      exact absurd hc.1 hvalid

lemma getD_mem (L : List (List Char)) (i : Nat) (h : i < L.length) :
    L.getD i [] ∈ L := by
  induction L generalizing i with
  | nil => simp at h
  | cons x xs ih =>
    rcases i with _ | j
    · rw [List.getD_cons_zero]; exact List.mem_cons_self _ _
    · rw [List.getD_cons_succ]
      exact List.mem_cons_of_mem _ (ih j (by simpa using h))

lemma placeholder_no_cr : ∀ ch ∈ placeholder, ch ≠ '\r' := by decide

lemma placeholder_no_nl : ∀ ch ∈ placeholder, ch ≠ '\n' := by decide

/-- Characters of the rewritten joined file, under CR-discipline: no carriage
return survives. -/
lemma joinNL_set_no_cr (c : List Char) (i : Nat) (repl : List Char)
    (hcr : crOnlyBeforeLF c = true)
    (hlt : i < (splitNL (normCRLF c)).length)
    (hrepl : redactLine ((splitNL (normCRLF c)).getD i []) = some repl) :
    ∀ ch ∈ joinNL ((splitNL (normCRLF c)).set i repl), ch ≠ '\r' := by
  intro ch hch
  have hnocr : '\r' ∉ normCRLF c := no_cr_normCRLF_of_crOnly c hcr
  have hpieces : ∀ p ∈ splitNL (normCRLF c), ∀ x ∈ p, x ∈ normCRLF c :=
    splitOnCh_chars '\n' (normCRLF c)
  rcases joinCh_chars '\n' _ ch hch with h | ⟨p, hp, hchp⟩
  · subst h; decide
  · rcases List.mem_or_eq_of_mem_set hp with hp | hp
    · intro hcontra
      subst hcontra
      exact hnocr (hpieces p hp _ hchp)
    · subst hp
      rcases redactLine_chars _ _ hrepl ch hchp with h | h
      · intro hcontra
        subst hcontra
        exact hnocr (hpieces _ (getD_mem _ i hlt) _ h)
      · exact placeholder_no_cr ch h

/-! ## Planner lemmas (claims C2, C3, C8) -/

lemma countGitIgnore_append (xs ys : List FixAction) :
    countGitIgnore (xs ++ ys) = countGitIgnore xs + countGitIgnore ys :=
  List.countP_append _ _ _

lemma beq_secret_gitignore : (FixSecretRedaction == FixGitIgnoreEnv) = false := by
  decide

lemma beq_gitignore_gitignore : (FixGitIgnoreEnv == FixGitIgnoreEnv) = true := by
  decide

lemma countGitIgnore_secret_singleton (fp : String) (ls : Int) (d : String) :
    countGitIgnore [{ Type' := FixSecretRedaction, FilePath := fp, LineStart := ls,
                      Description := d }] = 0 := by
  simp [countGitIgnore, List.countP_cons, beq_secret_gitignore]

lemma countGitIgnore_gitignore_singleton (fp : String) (ls : Int) (d : String) :
    countGitIgnore [{ Type' := FixGitIgnoreEnv, FilePath := fp, LineStart := ls,
                      Description := d }] = 1 := by
  simp [countGitIgnore, List.countP_cons, beq_gitignore_gitignore]

/-- Loop invariant of `buildPlanLoop`: the action count never exceeds the cap,
and the number of `GitIgnoreEnv` actions is exactly the `seenGitignore`
flag. -/
lemma buildPlanLoop_invariant (cap : Int) (fs : List Finding) (plan : Plan)
    (seen : Bool)
    (hlen : (plan.Actions.length : Int) ≤ cap)
    (hcnt : countGitIgnore plan.Actions = (if seen then 1 else 0)) :
    ((((buildPlanLoop cap fs plan seen).1.Actions.length : Int) ≤ cap) ∧
      countGitIgnore (buildPlanLoop cap fs plan seen).1.Actions =
        (if (buildPlanLoop cap fs plan seen).2 then 1 else 0)) := by
  induction fs generalizing plan seen with
  | nil => exact ⟨hlen, hcnt⟩
  | cons f rest ih =>
    rw [buildPlanLoop]
    by_cases hc : cap ≤ (plan.Actions.length : Int)
    · simp only [if_pos hc]
      exact ⟨hlen, hcnt⟩
    · simp only [if_neg hc]
      have hlt : (plan.Actions.length : Int) + 1 ≤ cap := by omega
      by_cases h1 :
          ((lowerStr (trimStr f.Tool) = "gitleaks" ||
            containsStr (lowerStr (trimStr f.Title)).data "secret".data) &&
           toSlash (trimStr f.FilePath) ≠ "") = true
      · simp only [if_pos h1]
        refine ih _ _ ?_ ?_
        · simp only [List.length_append, List.length_cons, List.length_nil]
          push_cast
          omega
        · rw [countGitIgnore_append, hcnt, countGitIgnore_secret_singleton]
          split <;> rfl
      · simp only [if_neg h1]
        by_cases h2 : (!seen) = true
        · simp only [if_pos h2]
          have hseen : seen = false := by simpa using h2
          refine ih _ _ ?_ ?_
          · simp only [List.length_append, List.length_cons, List.length_nil]
            push_cast
            omega
          · rw [countGitIgnore_append, hcnt, hseen, countGitIgnore_gitignore_singleton]
            rfl
        · simp only [if_neg h2]
          exact ih _ _ hlen hcnt

/-- C3: for every findings list `F` and every cap `M > 0`, the plan returned
by `BuildPlan F M` has at most `M` actions. -/
theorem buildPlan_length_le_cap (F : List Finding) (M : Int) (h : 0 < M) :
    ((BuildPlan F M).Actions.length : Int) ≤ M := by
  unfold BuildPlan
  have hM : ¬ (M ≤ 0) := not_le.mpr h
  simp only [if_neg hM]
  have inv := buildPlanLoop_invariant M F { Actions := [], Manual := [] } false
    (by simp; omega) (by simp [countGitIgnore])
  by_cases hfin :
      ((!(buildPlanLoop M F { Actions := [], Manual := [] } false).2) &&
       (((buildPlanLoop M F { Actions := [], Manual := [] } false).1.Actions.length : Int) < M)) = true
  · simp only [if_pos hfin]
    simp only [Bool.and_eq_true, decide_eq_true_eq] at hfin
    simp only [List.length_append, List.length_cons, List.length_nil]
    push_cast
    omega
  · simp only [if_neg hfin]
    exact inv.1

/-- Witness for C3 at `F = []`, `M = 3`. -/
theorem buildPlan_length_le_cap_witness :
    (0 : Int) < 3 ∧ ((BuildPlan [] 3).Actions.length : Int) ≤ 3 :=
  ⟨by decide, buildPlan_length_le_cap [] 3 (by decide)⟩

/-- C8: every plan returned by `BuildPlan` contains at most one
`GitIgnoreEnv` action. -/
theorem buildPlan_gitignore_at_most_one (F : List Finding) (M : Int) :
    countGitIgnore (BuildPlan F M).Actions ≤ 1 := by
  unfold BuildPlan
  set cap : Int := if M ≤ 0 then 10 else M with hcap
  have hcap0 : (0 : Int) < cap := by
    rw [hcap]; split <;> omega
  have inv := buildPlanLoop_invariant cap F { Actions := [], Manual := [] } false
    (by simp; omega) (by simp [countGitIgnore])
  by_cases hfin :
      ((!(buildPlanLoop cap F { Actions := [], Manual := [] } false).2) &&
       (((buildPlanLoop cap F { Actions := [], Manual := [] } false).1.Actions.length : Int) < cap)) = true
  · simp only [if_pos hfin]
    simp only [Bool.and_eq_true, Bool.not_eq_true', decide_eq_true_eq] at hfin
    rw [countGitIgnore_append, inv.2, hfin.1, countGitIgnore_gitignore_singleton]
    decide
  · simp only [if_neg hfin]
    rw [inv.2]
    split <;> omega

/-- C2 (corrected): the appended baseline `GitIgnoreEnv` action is guarded by
the cap, so a plan with no `GitIgnoreEnv` action is exactly one whose walk
filled the cap with secret redactions: its action count equals the effective
cap. -/
theorem buildPlan_gitignore_absent_implies_full (F : List Finding) (M : Int)
    (h : countGitIgnore (BuildPlan F M).Actions = 0) :
    ((BuildPlan F M).Actions.length : Int) = (if M ≤ 0 then 10 else M) := by
  unfold BuildPlan at h ⊢
  set cap : Int := if M ≤ 0 then 10 else M with hcap
  have hcap0 : (0 : Int) < cap := by
    rw [hcap]; split <;> omega
  have inv := buildPlanLoop_invariant cap F { Actions := [], Manual := [] } false
    (by simp; omega) (by simp [countGitIgnore])
  by_cases hfin :
      ((!(buildPlanLoop cap F { Actions := [], Manual := [] } false).2) &&
       (((buildPlanLoop cap F { Actions := [], Manual := [] } false).1.Actions.length : Int) < cap)) = true
  · rw [if_pos hfin] at h
    rw [countGitIgnore_append, inv.2, countGitIgnore_gitignore_singleton] at h
    omega
  · rw [if_neg hfin] at h ⊢
    simp only [Bool.and_eq_true, Bool.not_eq_true', decide_eq_true_eq, not_and_or,
      not_lt] at hfin
    rw [inv.2] at h
    rcases hfin with hseen | hge
    · rw [Bool.not_eq_false] at hseen
      rw [if_pos hseen] at h
      omega
    · omega

/-- C2 counterexample: a cap of 1 exhausted by one secret-redaction action
yields a plan with no `GitIgnoreEnv` action at all. -/
theorem buildPlan_no_gitignore_at_cap :
    countGitIgnore (BuildPlan
      [{ Tool := "gitleaks", Title := "Secret detected", FilePath := "app.env",
         LineStart := 1 }] 1).Actions = 0 := by
  decide

/-- Witness for the amended C2 at the same input. -/
theorem buildPlan_gitignore_absent_implies_full_witness :
    countGitIgnore (BuildPlan
      [{ Tool := "gitleaks", Title := "Secret detected", FilePath := "app.env",
         LineStart := 1 }] 1).Actions = 0 ∧
    ((BuildPlan
      [{ Tool := "gitleaks", Title := "Secret detected", FilePath := "app.env",
         LineStart := 1 }] 1).Actions.length : Int) = (if (1 : Int) ≤ 0 then 10 else 1) := by
  have h : countGitIgnore (BuildPlan
      [{ Tool := "gitleaks", Title := "Secret detected", FilePath := "app.env",
         LineStart := 1 }] 1).Actions = 0 := by decide
  exact ⟨h, buildPlan_gitignore_absent_implies_full _ 1 h⟩

/-! ## Token exchange (claim C9) -/

/-- C9: `InstallationToken` fails whenever the exchange response has a
non-success status (≥ 300) or an empty `token` field, and on success returns
the non-empty token from the body. -/
theorem installationToken_spec (j : String) (r : RespModel) :
    (300 ≤ r.statusCode ∨ r.bodyToken = some "" →
      ∃ e, InstallationToken (.ok j) (some r) = .error e) ∧
    (∀ t, r.statusCode < 300 → r.bodyToken = some t → t ≠ "" →
      InstallationToken (.ok j) (some r) = .ok t) := by
  constructor
  · intro h
    by_cases hs : 300 ≤ r.statusCode
    · exact ⟨_, by simp only [InstallationToken]; rw [if_pos hs]⟩
    · have hb : r.bodyToken = some "" := h.resolve_left hs
      refine ⟨"empty installation token", ?_⟩
      simp only [InstallationToken]
      rw [if_neg hs, hb]
      rfl
  · intro t hs hb hne
    simp only [InstallationToken]
    rw [if_neg (not_le.mpr hs), hb]
    simp [hne]

/-- Witness for C9: a 401 status fails, an empty token fails, a 200 status
with token `"tok"` succeeds. -/
theorem installationToken_spec_witness :
    (∃ e, InstallationToken (.ok "jwt") (some ⟨401, some "tok"⟩) = .error e) ∧
    (∃ e, InstallationToken (.ok "jwt") (some ⟨200, some ""⟩) = .error e) ∧
    InstallationToken (.ok "jwt") (some ⟨200, some "tok"⟩) = .ok "tok" :=
  ⟨(installationToken_spec "jwt" ⟨401, some "tok"⟩).1 (Or.inl (by decide)),
   (installationToken_spec "jwt" ⟨200, some ""⟩).1 (Or.inr rfl),
   (installationToken_spec "jwt" ⟨200, some "tok"⟩).2 "tok" (by decide) rfl (by decide)⟩

/-! ## Concrete redaction behaviour (claim C5) -/

/-- C5: applying a `SecretRedaction` action to a file whose declared line is
`API_TOKEN='supersecretvalue'` rewrites that line to the fixed placeholder and
the secret no longer appears in it; a file whose only line carries a bare
value shorter than 12 characters and no `:`/`=` separator is left unchanged
and the action is recorded as a Manual item. -/
theorem redaction_placeholder_and_manual_cases :
    (lookupFS (ApplyPlan "/w/repo"
        { Actions := [{ Type' := FixSecretRedaction, FilePath := "app.env",
                        LineStart := 1, Description := "redact" }], Manual := [] }
        [("/w/repo/app.env", "API_TOKEN='supersecretvalue'\n")]).2 "/w/repo/app.env"
      = some ⟨"API_TOKEN=".data ++ placeholder ++ ['\n']⟩) ∧
    ((ApplyPlan "/w/repo"
        { Actions := [{ Type' := FixSecretRedaction, FilePath := "app.env",
                        LineStart := 1, Description := "redact" }], Manual := [] }
        [("/w/repo/app.env", "API_TOKEN='supersecretvalue'\n")]).1.Applied.length = 1) ∧
    (containsStr ("API_TOKEN=".data ++ placeholder) "supersecretvalue".data = false) ∧
    ((ApplyPlan "/w/repo"
        { Actions := [{ Type' := FixSecretRedaction, FilePath := "short.env",
                        LineStart := 1, Description := "redact" }], Manual := [] }
        [("/w/repo/short.env", "API_TOKEN short")]).2
      = [("/w/repo/short.env", "API_TOKEN short")]) ∧
    ((ApplyPlan "/w/repo"
        { Actions := [{ Type' := FixSecretRedaction, FilePath := "short.env",
                        LineStart := 1, Description := "redact" }], Manual := [] }
        [("/w/repo/short.env", "API_TOKEN short")]).1.Manual
      = [{ Reason := "manual fix required: no safe redaction match found",
           Title := "redact", File := "short.env" }]) := by
  refine ⟨?_, ?_, ?_, ?_, ?_⟩ <;> decide

/-! ## Orchestrator (claims C1, C7) -/

/-- C7: an unconfirmed request that completes successfully returns
mode `dry-run` with empty PR URL and branch, and its whole event trace is the
single record-persistence event: no credentials are read, no token exchange
happens, and no provider call or remote mutation is performed. -/
theorem create_dry_run (req : Request) (env : CreateEnv) (resp : Response)
    (ev : List Event)
    (hconf : req.Confirm = false)
    (h : Create req env = (.ok resp, ev)) :
    resp.Mode = "dry-run" ∧ resp.PRURL = "" ∧ resp.Branch = "" ∧
    ev = [Event.persistRecord "dry-run" "" "" resp.Diff] := by
  simp only [Create, hconf, Bool.false_eq_true, if_false] at h
  split at h
  · simp at h
  · split at h
    · simp at h
    · split at h
      · simp at h
      · split at h
        · simp at h
        · split at h
          · simp at h
          · split at h
            · rw [Prod.mk.injEq] at h
              obtain ⟨h1, h2⟩ := h
              cases h1
              subst h2
              exact ⟨rfl, rfl, rfl, rfl⟩
            · simp at h

/-- Witness for C7: a concrete unconfirmed request against a fully healthy
environment. -/
theorem create_dry_run_witness :
    sampleReq.Confirm = false ∧
    Create sampleReq sampleEnv
      = (.ok { Mode := "dry-run", Diff := "D", PRURL := "", Branch := "" },
         [Event.persistRecord "dry-run" "" "" "D"]) ∧
    ({ Mode := "dry-run", Diff := "D", PRURL := "", Branch := "" } : Response).Mode
      = "dry-run" ∧
    ({ Mode := "dry-run", Diff := "D", PRURL := "", Branch := "" } : Response).PRURL = "" ∧
    ({ Mode := "dry-run", Diff := "D", PRURL := "", Branch := "" } : Response).Branch = "" ∧
    [Event.persistRecord "dry-run" "" "" "D"] =
      [Event.persistRecord "dry-run" "" ""
        ({ Mode := "dry-run", Diff := "D", PRURL := "", Branch := "" } : Response).Diff] := by
  have h : Create sampleReq sampleEnv
      = (.ok { Mode := "dry-run", Diff := "D", PRURL := "", Branch := "" },
         [Event.persistRecord "dry-run" "" "" "D"]) := by rfl
  have hc := create_dry_run _ _ _ _ rfl h
  exact ⟨rfl, h, hc.1, hc.2.1, hc.2.2.1, hc.2.2.2⟩

/-- C1 (corrected, counterexample): a request whose repository lookup fails
returns an error having persisted no `RemediationRecord` at all, so a record
is *not* written on every path. -/
theorem create_failure_persists_nothing :
    Create sampleReq sampleEnvNoRepo = (.error "repo not found", []) ∧
    countPersist (Create sampleReq sampleEnvNoRepo).2 = 0 :=
  ⟨rfl, rfl⟩

/-- `confirmAfterBase` only appends provider events. -/
lemma confirmAfterBase_no_persist (env : CreateEnv) (ev : List Event)
    (h : countPersist ev = 0) :
    countPersist (confirmAfterBase env ev).2 = 0 := by
  rw [countPersist] at h
  simp only [confirmAfterBase]
  repeat' split
  all_goals simp [countPersist, List.countP_append, List.countP_cons, isPersist, h]

/-- The confirmed branch performs provider events only, never a record
persistence. -/
lemma confirmFlow_no_persist (req : Request) (env : CreateEnv) (url : String) :
    countPersist (confirmFlow req env url).2 = 0 := by
  simp only [confirmFlow]
  repeat' split
  all_goals
    first
    | (apply confirmAfterBase_no_persist
       decide)
    | simp [countPersist, List.countP_append, List.countP_cons, isPersist]

/-- C1 (corrected): every request that completes successfully — dry-run or
created — persists exactly one `RemediationRecord`. -/
theorem create_success_persists_once (req : Request) (env : CreateEnv)
    (resp : Response) (ev : List Event)
    (h : Create req env = (.ok resp, ev)) :
    countPersist ev = 1 := by
  simp only [Create] at h
  split at h
  · simp at h
  · rename_i url hurl
    split at h
    · simp at h
    · split at h
      · simp at h
      · split at h
        · simp at h
        · split at h
          · simp at h
          · -- the `confirmed` intermediate result
            split at h
            · simp at h
            · rename_i mode branch prURL ev0 heq
              split at h
              · rw [Prod.mk.injEq] at h
                obtain ⟨h1, h2⟩ := h
                subst h2
                rw [countPersist, List.countP_append]
                have hev0 : countPersist ev0 = 0 := by
                  by_cases hc : req.Confirm = true
                  · rw [if_pos hc] at heq
                    split at heq
                    · simp at heq
                    · rename_i heq2
                      rw [Prod.mk.injEq] at heq
                      have hcf := confirmFlow_no_persist req env url
                      rw [heq2] at hcf
                      rw [← heq.2]
                      exact hcf
                  · rw [if_neg hc] at heq
                    rw [Prod.mk.injEq] at heq
                    rw [← heq.2]
                    rfl
                rw [countPersist] at hev0
                rw [hev0]
                rfl
              · simp at h

/-- Witness for the amended C1: the concrete dry-run request persists exactly
one record. -/
theorem create_success_persists_once_witness :
    Create sampleReq sampleEnv
      = (.ok { Mode := "dry-run", Diff := "D", PRURL := "", Branch := "" },
         [Event.persistRecord "dry-run" "" "" "D"]) ∧
    countPersist [Event.persistRecord "dry-run" "" "" "D"] = 1 :=
  ⟨rfl, create_success_persists_once sampleReq sampleEnv _ _ rfl⟩

/-! ## Frame behaviour of `redactSecretLine` (claim C10) -/

/-- C10: a successful `redactSecretLine` changes exactly one line — the
declared line when it matches the pattern, otherwise the first matching line
in file order — and rewrites the whole file as the LF-join of the
CRLF-normalised line split (leaving every other file untouched); when every
carriage return of the original content sits in a CRLF pair, no carriage
return survives in the rewritten file. -/
theorem redactSecretLine_frame (fs : FS) (path : String) (ls : Int)
    (hap : (redactSecretLine fs path ls).1 = true) :
    ∃ c i repl,
      lookupFS fs path = some c ∧
      i < (splitNL (normCRLF c.data)).length ∧
      redactLine ((splitNL (normCRLF c.data)).getD i []) = some repl ∧
      lookupFS (redactSecretLine fs path ls).2 path =
        some ⟨joinNL ((splitNL (normCRLF c.data)).set i repl)⟩ ∧
      (((0 < ls ∧ ls ≤ ((splitNL (normCRLF c.data)).length : Int)) ∧
          redactLine ((splitNL (normCRLF c.data)).getD (ls.toNat - 1) []) ≠ none) →
        i = ls.toNat - 1) ∧
      ((¬ ((0 < ls ∧ ls ≤ ((splitNL (normCRLF c.data)).length : Int)) ∧
          redactLine ((splitNL (normCRLF c.data)).getD (ls.toNat - 1) []) ≠ none)) →
        scanRedact (splitNL (normCRLF c.data)) = some (i, repl)) ∧
      (∀ q, q ≠ path → lookupFS (redactSecretLine fs path ls).2 q = lookupFS fs q) ∧
      (crOnlyBeforeLF c.data = true →
        ∀ ch ∈ joinNL ((splitNL (normCRLF c.data)).set i repl), ch ≠ '\r') := by
  rcases hlk : lookupFS fs path with _ | ⟨c⟩
  · simp only [redactSecretLine, hlk] at hap
    exact absurd hap (by decide)
  · rcases hrc : redactContent c.data ls with _ | ⟨c'⟩
    · simp only [redactSecretLine, hlk, hrc] at hap
      exact absurd hap (by decide)
    · have heq : redactSecretLine fs path ls = (true, setFS fs path ⟨c'⟩) := by
        simp only [redactSecretLine, hlk, hrc]
      obtain ⟨i, repl, hlt, hred, hout, hdecl, hscan⟩ := redactContent_some c.data ls c' hrc
      refine ⟨c, i, repl, rfl, hlt, hred, ?_, hdecl, hscan, ?_, ?_⟩
      · rw [heq]
        subst hout
        exact lookupFS_setFS_self fs path _
      · intro q hq
        rw [heq]
        exact lookupFS_setFS_ne fs path _ q hq
      · intro hcr
        exact joinNL_set_no_cr c.data i repl hcr hlt hred

/-- Witness for C10 at a concrete CRLF file. -/
theorem redactSecretLine_frame_witness :
    (redactSecretLine [("/r/a.txt", "A\r\nTOKEN=abcdefghijkl")] "/r/a.txt" 2).1 = true ∧
    (∃ c i repl,
      lookupFS [("/r/a.txt", "A\r\nTOKEN=abcdefghijkl")] "/r/a.txt" = some c ∧
      i < (splitNL (normCRLF c.data)).length ∧
      redactLine ((splitNL (normCRLF c.data)).getD i []) = some repl ∧
      lookupFS (redactSecretLine [("/r/a.txt", "A\r\nTOKEN=abcdefghijkl")] "/r/a.txt" 2).2 "/r/a.txt" =
        some ⟨joinNL ((splitNL (normCRLF c.data)).set i repl)⟩ ∧
      (((0 < (2 : Int) ∧ (2 : Int) ≤ ((splitNL (normCRLF c.data)).length : Int)) ∧
          redactLine ((splitNL (normCRLF c.data)).getD ((2 : Int).toNat - 1) []) ≠ none) →
        i = (2 : Int).toNat - 1) ∧
      ((¬ ((0 < (2 : Int) ∧ (2 : Int) ≤ ((splitNL (normCRLF c.data)).length : Int)) ∧
          redactLine ((splitNL (normCRLF c.data)).getD ((2 : Int).toNat - 1) []) ≠ none)) →
        scanRedact (splitNL (normCRLF c.data)) = some (i, repl)) ∧
      (∀ q, q ≠ "/r/a.txt" →
        lookupFS (redactSecretLine [("/r/a.txt", "A\r\nTOKEN=abcdefghijkl")] "/r/a.txt" 2).2 q =
          lookupFS [("/r/a.txt", "A\r\nTOKEN=abcdefghijkl")] q) ∧
      (crOnlyBeforeLF c.data = true →
        ∀ ch ∈ joinNL ((splitNL (normCRLF c.data)).set i repl), ch ≠ '\r')) :=
  ⟨by decide, redactSecretLine_frame _ _ _ (by decide)⟩

/-! ## Path-traversal guard of `ApplyPlan` (claim C6) -/


lemma cleanComps_push (rooted : Bool) (stack : List (List Char))
    (cs : List (List Char)) (h : ∀ c ∈ cs, validComp c = true) :
    cleanComps rooted stack cs = stack ++ cs := by
  induction cs generalizing stack with
  | nil => simp [cleanComps]
  | cons c cs ih =>
    have hc := h c (List.mem_cons_self c cs)
    simp only [validComp, Bool.and_eq_true, decide_eq_true_eq] at hc
    rw [cleanComps, if_neg (by simp [hc.1.1, hc.1.2]), if_neg hc.2]
    rw [ih (stack ++ [c]) (fun d hd => h d (List.mem_cons_of_mem c hd))]
    simp

lemma joinCh_append_last (sep : Char) (as : List (List Char)) (b : List Char)
    (h : as ≠ []) :
    joinCh sep (as ++ [b]) = joinCh sep as ++ sep :: b := by
  induction as with
  | nil => exact absurd rfl h
  | cons a as ih =>
    rcases as with _ | ⟨a2, as2⟩
    · rfl
    · have ih' := ih (List.cons_ne_nil a2 as2)
      calc joinCh sep ((a :: a2 :: as2) ++ [b])
          = a ++ sep :: joinCh sep ((a2 :: as2) ++ [b]) := rfl
        _ = a ++ sep :: (joinCh sep (a2 :: as2) ++ sep :: b) := by rw [ih']
        _ = (a ++ sep :: joinCh sep (a2 :: as2)) ++ sep :: b := by simp

lemma goodRoot_spec (root : String) (h : GoodRoot root = true) :
    ∃ rest, root.data = '/' :: rest ∧ rest ≠ [] ∧
      ∀ c ∈ splitSlash rest, validComp c = true := by
  rw [GoodRoot] at h
  split at h
  · rename_i rest heq
    simp only [Bool.and_eq_true, decide_eq_true_eq, List.all_eq_true] at h
    exact ⟨rest, heq, h.1, h.2⟩
  · exact absurd h (by decide)

lemma goodRoot_pathJoin_gitignore (root : String) (h : GoodRoot root = true) :
    (pathJoin root ".gitignore").data = root.data ++ '/' :: ".gitignore".data := by
  obtain ⟨rest, hd, hne, hval⟩ := goodRoot_spec root h
  have hroot_ne : root.data ≠ [] := by rw [hd]; simp
  have hgit_ne : (".gitignore" : String).data ≠ [] := by decide
  rw [pathJoin, if_neg hroot_ne, if_neg hgit_ne]
  show cleanData (root.data ++ '/' :: ".gitignore".data) = root.data ++ '/' :: ".gitignore".data
  have hsplit : splitSlash (root.data ++ '/' :: ".gitignore".data)
      = [] :: (splitSlash rest ++ [".gitignore".data]) := by
    rw [hd]
    have h1 : (('/' : Char) :: rest) ++ '/' :: ".gitignore".data
        = [] ++ ('/' : Char) :: (rest ++ '/' :: ".gitignore".data) := by simp
    rw [h1]
    show splitOnCh '/' ([] ++ ('/' : Char) :: (rest ++ '/' :: ".gitignore".data))
        = [] :: (splitOnCh '/' rest ++ [".gitignore".data])
    rw [splitOnCh_append_sep, splitOnCh_append_sep]
    have hg : splitOnCh '/' ".gitignore".data = [".gitignore".data] := by decide
    rw [hg]
    rfl
  have hvalall : ∀ c ∈ splitSlash rest ++ [".gitignore".data], validComp c = true := by
    intro c hc
    rcases List.mem_append.1 hc with hc | hc
    · exact hval c hc
    · have : c = ".gitignore".data := by simpa using hc
      subst this
      decide
  have hstack : cleanComps true [] ([] :: (splitSlash rest ++ [".gitignore".data]))
      = splitSlash rest ++ [".gitignore".data] := by
    rw [cleanComps]
    rw [if_pos (by simp)]
    exact cleanComps_push true [] _ hvalall
  have hjoin : joinComps (splitSlash rest ++ [".gitignore".data])
      = rest ++ '/' :: ".gitignore".data := by
    show joinCh '/' (splitOnCh '/' rest ++ [".gitignore".data]) = rest ++ '/' :: ".gitignore".data
    rw [joinCh_append_last '/' _ _ (splitOnCh_ne_nil '/' rest), joinCh_splitOnCh]
  have hhead : (root.data ++ '/' :: ".gitignore".data).head? = some '/' := by
    rw [hd]; rfl
  simp only [cleanData]
  rw [if_neg (by rw [hd]; simp)]
  rw [if_pos hhead, decide_eq_true hhead, hsplit, hstack, hjoin, hd]
  simp


lemma hasPrefixStr_append (a b : List Char) : hasPrefixStr (a ++ b) a = true := by
  rw [hasPrefixStr]
  exact List.isPrefixOf_iff_prefix.2 (List.prefix_append a b)

lemma inRoot_gitignore (root : String) (h : GoodRoot root = true) :
    inRoot root (pathJoin root ".gitignore") = true := by
  rw [inRoot, goodRoot_pathJoin_gitignore root h]
  have h2 : root.data ++ '/' :: ".gitignore".data
      = (root.data ++ ['/']) ++ ".gitignore".data := by simp
  rw [h2, hasPrefixStr_append]
  simp

lemma ensureEnvIgnored_preserves (fs : FS) (p q : String) (hq : q ≠ p) :
    lookupFS (ensureEnvIgnored fs p).2 q = lookupFS fs q := by
  simp only [ensureEnvIgnored]
  split
  · rfl
  · exact lookupFS_setFS_ne fs p _ q hq

lemma redactSecretLine_preserves (fs : FS) (p : String) (ls : Int) (q : String)
    (hq : q ≠ p) :
    lookupFS (redactSecretLine fs p ls).2 q = lookupFS fs q := by
  rcases hl : lookupFS fs p with _ | c
  · have heq : redactSecretLine fs p ls = (false, fs) := by
      simp only [redactSecretLine, hl]
    rw [heq]
  · rcases hrc : redactContent c.data ls with _ | c2
    · have heq : redactSecretLine fs p ls = (false, fs) := by
        simp only [redactSecretLine, hl, hrc]
      rw [heq]
    · have heq : redactSecretLine fs p ls = (true, setFS fs p ⟨c2⟩) := by
        simp only [redactSecretLine, hl, hrc]
      rw [heq]
      exact lookupFS_setFS_ne fs p _ q hq

lemma applyStep_preserves (root : String) (st : ApplyResult × FS) (a : FixAction)
    (q : String) (hgq : q ≠ pathJoin root ".gitignore")
    (hq : inRoot root q = false) :
    lookupFS (applyStep root st a).2 q = lookupFS st.2 q := by
  simp only [applyStep]
  split
  · rcases hge : ensureEnvIgnored st.2 (pathJoin root ".gitignore") with ⟨applied, fs'⟩
    have hpres := ensureEnvIgnored_preserves st.2 (pathJoin root ".gitignore") q hgq
    rw [hge] at hpres
    split <;> simpa using hpres
  · split
    · split
      · rfl
      · rename_i hty2 hcheck
        have hqt : q ≠ pathJoin root (pathClean a.FilePath) := by
          intro he
          rw [inRoot] at hq
          by_cases hpre : hasPrefixStr (pathJoin root (pathClean a.FilePath)).data
              (root.data ++ ['/']) = true
          · rw [he, hpre] at hq
            simp at hq
          · have htr : pathJoin root (pathClean a.FilePath) = root := by
              by_contra hne
              exact hcheck ⟨by simpa using hpre, hne⟩
            rw [he, htr] at hq
            simp at hq
        rcases hrs : redactSecretLine st.2 (pathJoin root (pathClean a.FilePath))
            a.LineStart with ⟨ap, fs'⟩
        have hpres := redactSecretLine_preserves st.2 _ a.LineStart q hqt
        rw [hrs] at hpres
        split <;> simpa using hpres
    · rfl

lemma foldl_applyStep_preserves (root : String) (actions : List FixAction)
    (st : ApplyResult × FS) (q : String)
    (hgq : q ≠ pathJoin root ".gitignore") (hq : inRoot root q = false) :
    lookupFS (actions.foldl (applyStep root) st).2 q = lookupFS st.2 q := by
  induction actions generalizing st with
  | nil => rfl
  | cons a rest ih =>
    rw [List.foldl_cons, ih (applyStep root st a)]
    exact applyStep_preserves root st a q hgq hq

lemma applyStep_manual_mem (root : String) (st : ApplyResult × FS) (a : FixAction)
    (m : ManualItem) (hm : m ∈ st.1.Manual) :
    m ∈ (applyStep root st a).1.Manual := by
  simp only [applyStep]
  split
  · rcases hge : ensureEnvIgnored st.2 (pathJoin root ".gitignore") with ⟨applied, fs'⟩
    split <;> simpa using hm
  · split
    · split
      · exact List.mem_append_left _ hm
      · rcases hrs : redactSecretLine st.2 (pathJoin root (pathClean a.FilePath))
            a.LineStart with ⟨ap, fs'⟩
        split
        · simpa using hm
        · exact List.mem_append_left _ hm
    · exact List.mem_append_left _ hm

lemma foldl_manual_mem (root : String) (actions : List FixAction)
    (st : ApplyResult × FS) (m : ManualItem) (hm : m ∈ st.1.Manual) :
    m ∈ (actions.foldl (applyStep root) st).1.Manual := by
  induction actions generalizing st with
  | nil => exact hm
  | cons a rest ih =>
    rw [List.foldl_cons]
    exact ih (applyStep root st a) (applyStep_manual_mem root st a m hm)

lemma foldl_manual_hit (root : String) (actions : List FixAction)
    (st : ApplyResult × FS) (a : FixAction)
    (hty : a.Type' = FixSecretRedaction)
    (hpre : hasPrefixStr (pathJoin root (pathClean a.FilePath)).data
        (root.data ++ ['/']) = false)
    (hner : pathJoin root (pathClean a.FilePath) ≠ root)
    (ha : a ∈ actions) :
    ({ Reason := "manual fix required: invalid target path",
       Title := a.Description, File := a.FilePath } : ManualItem)
      ∈ (actions.foldl (applyStep root) st).1.Manual := by
  revert ha
  induction actions generalizing st with
  | nil => intro ha; cases ha
  | cons b rest ih =>
    intro ha
    rw [List.mem_cons] at ha
    rw [List.foldl_cons]
    rcases ha with hab | ha
    · subst hab
      apply foldl_manual_mem
      simp only [applyStep]
      rw [if_neg (by rw [hty]; decide), if_pos hty,
        if_pos ⟨by simp [hpre], hner⟩]
      exact List.mem_append_right _ (List.mem_singleton.2 rfl)
    · exact ih (applyStep root st b) ha

/-- C6: a SecretRedaction action whose cleaned file path, joined under the
working-copy root, escapes the root (it fails the `root + "/"` prefix test and
is not the root itself) is rejected by `ApplyPlan` and recorded as a Manual
item with reason "manual fix required: invalid target path"; and for a
well-formed root `ApplyPlan` never writes outside the root: every path that is
neither under `root + "/"` nor the root itself is untouched in the resulting
file system. -/
theorem applyPlan_rejects_escaping_paths (repoDir : String) (plan : Plan)
    (fs : FS) (a : FixAction)
    (hroot : GoodRoot (pathClean repoDir) = true)
    (ha : a ∈ plan.Actions) (hty : a.Type' = FixSecretRedaction)
    (hpre : hasPrefixStr (pathJoin (pathClean repoDir) (pathClean a.FilePath)).data
        ((pathClean repoDir).data ++ ['/']) = false)
    (hner : pathJoin (pathClean repoDir) (pathClean a.FilePath) ≠ pathClean repoDir) :
    ({ Reason := "manual fix required: invalid target path",
       Title := a.Description, File := a.FilePath } : ManualItem)
        ∈ (ApplyPlan repoDir plan fs).1.Manual ∧
    ∀ q : String, inRoot (pathClean repoDir) q = false →
        lookupFS (ApplyPlan repoDir plan fs).2 q = lookupFS fs q := by
  rw [ApplyPlan]
  constructor
  · exact foldl_manual_hit (pathClean repoDir) plan.Actions _ a hty hpre hner ha
  · intro q hq
    have hgq : q ≠ pathJoin (pathClean repoDir) ".gitignore" := by
      intro he
      have hin := inRoot_gitignore (pathClean repoDir) hroot
      rw [← he] at hin
      rw [hin] at hq
      cases hq
    exact foldl_applyStep_preserves (pathClean repoDir) plan.Actions _ q hgq hq

/-- Witness for C6: the action path `../evil` under root `/w/repo` resolves to
`/w/evil`, is rejected as Manual, and the file system stays empty. -/
theorem applyPlan_rejects_escaping_paths_witness :
    GoodRoot (pathClean "/w/repo") = true ∧
    inRoot (pathClean "/w/repo") "/w/evil" = false ∧
    ({ Reason := "manual fix required: invalid target path",
       Title := "d", File := "../evil" } : ManualItem)
      ∈ (ApplyPlan "/w/repo"
          { Actions := [{ Type' := FixSecretRedaction, FilePath := "../evil",
                          LineStart := 1, Description := "d" }],
            Manual := [] } []).1.Manual ∧
    lookupFS (ApplyPlan "/w/repo"
          { Actions := [{ Type' := FixSecretRedaction, FilePath := "../evil",
                          LineStart := 1, Description := "d" }],
            Manual := [] } []).2 "/w/evil" = lookupFS [] "/w/evil" := by
  have h := applyPlan_rejects_escaping_paths "/w/repo"
    { Actions := [{ Type' := FixSecretRedaction, FilePath := "../evil",
                    LineStart := 1, Description := "d" }],
      Manual := [] } []
    { Type' := FixSecretRedaction, FilePath := "../evil",
      LineStart := 1, Description := "d" }
    (by decide) (by decide) (by decide) (by decide) (by decide)
  exact ⟨by decide, by decide, h.1, h.2 "/w/evil" (by decide)⟩

/-! ## Idempotence analysis of `ApplyPlan` (claim C4) -/

lemma redactLine_nil : redactLine [] = none := by decide

lemma mem_set_cases (L : List (List Char)) (i : Nat) (v w : List Char)
    (h : w ∈ L.set i v) : w ∈ L ∨ w = v := by
  induction L generalizing i with
  | nil => rw [List.set] at h; exact Or.inl h
  | cons x xs ih =>
    rcases i with _ | j
    · rw [List.set_cons_zero] at h
      rcases List.mem_cons.mp h with h | h
      · exact Or.inr h
      · exact Or.inl (List.mem_cons_of_mem _ h)
    · rw [List.set_cons_succ] at h
      rcases List.mem_cons.mp h with h | h
      · subst h; exact Or.inl (List.mem_cons_self _ _)
      · rcases ih j h with h | h
        · exact Or.inl (List.mem_cons_of_mem _ h)
        · exact Or.inr h

lemma redactLine_no_nl (l r : List Char) (h : redactLine l = some r)
    (hl : '\n' ∉ l) : '\n' ∉ r := by
  intro hr
  rcases redactLine_chars l r h '\n' hr with hc | hc
  · exact hl hc
  · exact placeholder_no_nl '\n' hc rfl

lemma joinNL_splitNL (l : List Char) : joinNL (splitNL l) = l :=
  joinCh_splitOnCh '\n' l

lemma splitNL_joinNL_set (L : List (List Char)) (i : Nat) (repl : List Char)
    (hL : ∀ p ∈ L, '\n' ∉ p) (hrepl : '\n' ∉ repl) (hne : L ≠ []) :
    splitNL (joinNL (L.set i repl)) = L.set i repl := by
  apply splitOnCh_joinCh
  · intro p hp
    rcases mem_set_cases L i repl p hp with h | h
    · exact hL p h
    · rw [h]; exact hrepl
  · intro hcontra
    have hlen : L.length = 0 := by
      have := congrArg List.length hcontra
      simpa using this
    exact hne (List.length_eq_zero.mp hlen)

lemma getD_append_lt (pre t : List (List Char)) (n : Nat) (h : n < pre.length) :
    (pre ++ t).getD n [] = pre.getD n [] := by
  induction pre generalizing n with
  | nil => simp at h
  | cons x xs ih =>
    rcases n with _ | m
    · rfl
    · rw [List.cons_append, List.getD_cons_succ, List.getD_cons_succ]
      exact ih m (by simpa using h)

lemma getD_append_ge (pre t : List (List Char)) (n : Nat) (h : pre.length ≤ n) :
    (pre ++ t).getD n [] = t.getD (n - pre.length) [] := by
  induction pre generalizing n with
  | nil => simp
  | cons x xs ih =>
    rcases n with _ | m
    · simp at h
    · rw [List.cons_append, List.getD_cons_succ, ih m (by simpa using h)]
      simp [Nat.succ_sub_succ]

lemma getD_out_default (t : List (List Char)) (n : Nat) (h : t.length ≤ n) :
    t.getD n [] = [] := by
  induction t generalizing n with
  | nil => rfl
  | cons x xs ih =>
    rcases n with _ | m
    · simp at h
    · rw [List.getD_cons_succ]
      exact ih m (by simpa using h)

lemma getD_none_of_out (t : List (List Char)) (n : Nat)
    (ht : ∀ l ∈ t, redactLine l = none) : redactLine (t.getD n []) = none := by
  by_cases h : n < t.length
  · exact ht _ (getD_mem t n h)
  · rw [getD_out_default t n (by omega)]
    exact redactLine_nil

lemma fixLines_establish_decl (L : List (List Char)) (ls : Int) (repl : List Char)
    (hval : 0 < ls ∧ ls ≤ (L.length : Int))
    (hred : redactLine (L.getD (ls.toNat - 1) []) = some repl) :
    fixLines (L.set (ls.toNat - 1) repl) ls := by
  have hd : ls.toNat - 1 < L.length := by omega
  left
  refine ⟨by rw [List.length_set]; exact hval, ?_⟩
  rw [getD_set_self L _ repl hd]
  exact redactLine_fixpoint _ repl hred

lemma fixLines_establish_scan (L : List (List Char)) (ls : Int) (i : Nat)
    (repl : List Char)
    (hbad : ¬ ((0 < ls ∧ ls ≤ (L.length : Int)) ∧
        redactLine (L.getD (ls.toNat - 1) []) ≠ none))
    (hscan : scanRedact L = some (i, repl)) :
    fixLines (L.set i repl) ls := by
  obtain ⟨hlt, hred, hmin⟩ := scanRedact_some L i repl hscan
  right
  constructor
  · by_cases hval : 0 < ls ∧ ls ≤ (L.length : Int)
    · have hnone : redactLine (L.getD (ls.toNat - 1) []) = none := by
        by_contra hne
        exact hbad ⟨hval, hne⟩
      right
      have hdi : ls.toNat - 1 ≠ i := by
        intro he
        rw [he, hred] at hnone
        cases hnone
      rw [getD_set_ne L i _ repl (fun he => hdi he.symm)]
      exact hnone
    · left
      rw [List.length_set]
      exact hval
  · right
    refine ⟨i, ?_⟩
    rw [getD_set_self L i repl hlt]
    apply scanRedact_build
    · rw [List.length_set]; exact hlt
    · rw [getD_set_self L i repl hlt]
      exact redactLine_fixpoint _ repl hred
    · intro j hj
      rw [getD_set_ne L i j repl (by omega)]
      exact hmin j hj

lemma fixLines_set (L : List (List Char)) (ls : Int) (j : Nat) (repl0 : List Char)
    (hfix : fixLines L ls) (hj : j < L.length)
    (hred : redactLine (L.getD j []) = some repl0) :
    fixLines (L.set j repl0) ls := by
  rcases hfix with ⟨hval, hdecl⟩ | ⟨hbad, hscan⟩
  · left
    refine ⟨by rw [List.length_set]; exact hval, ?_⟩
    by_cases hjd : j = ls.toNat - 1
    · rw [← hjd, getD_set_self L j repl0 hj]
      exact redactLine_fixpoint _ repl0 hred
    · rw [getD_set_ne L j _ repl0 hjd]
      exact hdecl
  · rcases hscan with hnone | ⟨i, hsome⟩
    · exfalso
      have hn := (scanRedact_none_iff L).mp hnone (L.getD j []) (getD_mem L j hj)
      rw [hn] at hred
      cases hred
    · obtain ⟨hlt, hredi, hmin⟩ := scanRedact_some L i _ hsome
      have hji : ¬ j < i := by
        intro hlt2
        have hn := hmin j hlt2
        rw [hn] at hred
        exact Option.noConfusion hred
      by_cases hje : j = i
      · subst hje
        have hre : repl0 = L.getD j [] :=
          Option.some.inj (hred.symm.trans hredi)
        rw [hre, set_getD_self L j hj]
        exact Or.inr ⟨hbad, Or.inr ⟨j, hsome⟩⟩
      · right
        constructor
        · rcases hbad with hbad | hbad
          · left; rw [List.length_set]; exact hbad
          · right
            by_cases hjd : j = ls.toNat - 1
            · subst hjd
              rw [hred] at hbad
              cases hbad
            · rw [getD_set_ne L j _ repl0 hjd]
              exact hbad
        · right
          refine ⟨i, ?_⟩
          rw [getD_set_ne L j i repl0 hje]
          apply scanRedact_build
          · rw [List.length_set]; exact hlt
          · rw [getD_set_ne L j i repl0 hje]
            exact hredi
          · intro k hk
            rw [getD_set_ne L j k repl0 (fun he => hji (he ▸ hk))]
            exact hmin k hk

lemma fixLines_append (pre old nw : List (List Char)) (ls : Int)
    (hfix : fixLines (pre ++ old) ls)
    (hold : ∀ l ∈ old, redactLine l = none)
    (hnw : ∀ l ∈ nw, redactLine l = none) :
    fixLines (pre ++ nw) ls := by
  rcases hfix with ⟨hval, hdecl⟩ | ⟨hbad, hscan⟩
  · have hd : ls.toNat - 1 < (pre ++ old).length := by
      have := hval
      omega
    have hdpre : ls.toNat - 1 < pre.length := by
      by_contra hge
      push_neg at hge
      rw [getD_append_ge pre old _ hge] at hdecl
      have hn := getD_none_of_out old (ls.toNat - 1 - pre.length) hold
      rw [hn] at hdecl
      cases hdecl
    left
    constructor
    · refine ⟨hval.1, ?_⟩
      rw [List.length_append]
      push_cast
      omega
    · have hdecl2 := hdecl
      rw [getD_append_lt pre old _ hdpre] at hdecl2
      rw [getD_append_lt pre nw _ hdpre]
      exact hdecl2
  · refine Or.inr ⟨?_, ?_⟩
    · by_cases hval2 : 0 < ls ∧ ls ≤ ((pre ++ nw).length : Int)
      · right
        by_cases hdp : ls.toNat - 1 < pre.length
        · rcases hbad with hbad | hbad
          · exfalso
            apply hbad
            refine ⟨hval2.1, ?_⟩
            rw [List.length_append]
            push_cast
            omega
          · rw [getD_append_lt pre old _ hdp] at hbad
            rw [getD_append_lt pre nw _ hdp]
            exact hbad
        · push_neg at hdp
          rw [getD_append_ge pre nw _ hdp]
          exact getD_none_of_out nw _ hnw
      · left; exact hval2
    · rcases hscan with hnone | ⟨i, hsome⟩
      · left
        rw [scanRedact_none_iff] at hnone ⊢
        intro l hl
        rcases List.mem_append.mp hl with hl | hl
        · exact hnone l (List.mem_append_left old hl)
        · exact hnw l hl
      · obtain ⟨hlt, hredi, hmin⟩ := scanRedact_some _ i _ hsome
        have hipre : i < pre.length := by
          by_contra hge
          push_neg at hge
          rw [getD_append_ge pre old i hge] at hredi
          have hn := getD_none_of_out old (i - pre.length) hold
          rw [hn] at hredi
          cases hredi
        right
        refine ⟨i, ?_⟩
        rw [getD_append_lt pre nw i hipre]
        apply scanRedact_build
        · rw [List.length_append]
          omega
        · have hredi2 := hredi
          rw [getD_append_lt pre old i hipre] at hredi2
          rw [getD_append_lt pre nw i hipre]
          exact hredi2
        · intro j hj
          have hm := hmin j hj
          rw [getD_append_lt pre old j (by omega)] at hm
          rw [getD_append_lt pre nw j (by omega)]
          exact hm

lemma redactContent_none_elim (c : List Char) (ls : Int)
    (h : redactContent c ls = none) :
    scanRedact (splitNL (normCRLF c)) = none ∧
    (¬ (0 < ls ∧ ls ≤ ((splitNL (normCRLF c)).length : Int)) ∨
      redactLine ((splitNL (normCRLF c)).getD (ls.toNat - 1) []) = none) := by
  rw [redactContent] at h
  split at h
  · rename_i hval
    rcases hd : redactLine ((splitNL (normCRLF c)).getD (ls.toNat - 1) []) with _ | r
    · simp only [hd] at h
      rw [redactScan] at h
      rcases hs : scanRedact (splitNL (normCRLF c)) with _ | p
      · exact ⟨rfl, Or.inr rfl⟩
      · simp only [hs] at h
        rcases p with ⟨i, rr⟩
        exact Option.noConfusion h
    · simp only [hd] at h
      exact Option.noConfusion h
  · rename_i hval
    rw [redactScan] at h
    rcases hs : scanRedact (splitNL (normCRLF c)) with _ | p
    · exact ⟨rfl, Or.inl hval⟩
    · simp only [hs] at h
      rcases p with ⟨i, rr⟩
      exact Option.noConfusion h

lemma fixLines_of_self (c : List Char) (ls : Int) (hcr : '\r' ∉ c)
    (h : redactContent c ls = some c) :
    fixLines (splitNL c) ls := by
  have hn : normCRLF c = c := normCRLF_of_no_cr c hcr
  obtain ⟨i, repl, hlt, hred, hout, hdecl, hscan⟩ := redactContent_some c ls c h
  rw [hn] at hlt hred hout hdecl hscan
  have hpieces : ∀ p ∈ splitNL c, '\n' ∉ p :=
    fun p hp => splitOnCh_sep_not_mem '\n' c p hp
  have hrnl : '\n' ∉ repl :=
    redactLine_no_nl _ repl hred (hpieces _ (getD_mem _ i hlt))
  have hsetid : splitNL c = (splitNL c).set i repl := by
    conv_lhs => rw [hout]
    exact splitNL_joinNL_set (splitNL c) i repl hpieces hrnl (splitOnCh_ne_nil '\n' c)
  have hrepl_eq : repl = (splitNL c).getD i [] := by
    have hg := getD_set_self (splitNL c) i repl hlt
    rw [← hsetid] at hg
    exact hg.symm
  by_cases hvd : (0 < ls ∧ ls ≤ ((splitNL c).length : Int)) ∧
      redactLine ((splitNL c).getD (ls.toNat - 1) []) ≠ none
  · left
    have hi := hdecl hvd
    refine ⟨hvd.1, ?_⟩
    rw [← hi]
    rw [hrepl_eq] at hred
    exact hred
  · right
    constructor
    · by_cases hv : 0 < ls ∧ ls ≤ ((splitNL c).length : Int)
      · right
        by_contra hne
        exact hvd ⟨hv, hne⟩
      · left; exact hv
    · right
      refine ⟨i, ?_⟩
      have hs := hscan hvd
      rw [hrepl_eq] at hs
      exact hs

lemma fixLines_of_none (c : List Char) (ls : Int) (hcr : '\r' ∉ c)
    (h : redactContent c ls = none) : fixLines (splitNL c) ls := by
  have hn : normCRLF c = c := normCRLF_of_no_cr c hcr
  obtain ⟨hs, hb⟩ := redactContent_none_elim c ls h
  rw [hn] at hs hb
  exact Or.inr ⟨hb, Or.inl hs⟩

lemma redactContent_of_fixLines (c : List Char) (ls : Int) (hcr : '\r' ∉ c)
    (hfix : fixLines (splitNL c) ls) :
    redactContent c ls = none ∨ redactContent c ls = some c := by
  have hn : normCRLF c = c := normCRLF_of_no_cr c hcr
  rcases hfix with ⟨hval, hdecl⟩ | ⟨hbad, hscan⟩
  · right
    rw [redactContent, hn, if_pos hval]
    simp only [hdecl]
    have hd : ls.toNat - 1 < (splitNL c).length := by
      have := hval
      omega
    rw [set_getD_self (splitNL c) _ hd, joinNL_splitNL]
  · rcases hscan with hnone | ⟨i, hsome⟩
    · left
      rw [redactContent, hn]
      by_cases hval : 0 < ls ∧ ls ≤ ((splitNL c).length : Int)
      · rw [if_pos hval]
        have hdn : redactLine ((splitNL c).getD (ls.toNat - 1) []) = none := by
          rcases hbad with hb | hb
          · exact absurd hval hb
          · exact hb
        simp only [hdn]
        rw [redactScan]
        simp only [hnone]
      · rw [if_neg hval, redactScan]
        simp only [hnone]
    · right
      obtain ⟨hlt, hredi, hmin⟩ := scanRedact_some _ i _ hsome
      rw [redactContent, hn]
      have hout : joinNL ((splitNL c).set i ((splitNL c).getD i [])) = c := by
        rw [set_getD_self _ i hlt, joinNL_splitNL]
      by_cases hval : 0 < ls ∧ ls ≤ ((splitNL c).length : Int)
      · rw [if_pos hval]
        have hdn : redactLine ((splitNL c).getD (ls.toNat - 1) []) = none := by
          rcases hbad with hb | hb
          · exact absurd hval hb
          · exact hb
        simp only [hdn]
        rw [redactScan]
        simp only [hsome]
        rw [hout]
      · rw [if_neg hval, redactScan]
        simp only [hsome]
        rw [hout]

lemma redactContent_all_none (c : List Char) (ls : Int)
    (h : ∀ l ∈ splitNL (normCRLF c), redactLine l = none) :
    redactContent c ls = none := by
  have hs : scanRedact (splitNL (normCRLF c)) = none := (scanRedact_none_iff _).mpr h
  rw [redactContent]
  split
  · rename_i hval
    have hd : redactLine ((splitNL (normCRLF c)).getD (ls.toNat - 1) []) = none := by
      apply h
      apply getD_mem
      have := hval
      omega
    simp only [hd]
    rw [redactScan]
    simp only [hs]
  · rw [redactScan]
    simp only [hs]

lemma redactContent_none_conflict (c : List Char) (ls ls2 : Int) (out : List Char)
    (hn : redactContent c ls = none) (hs : redactContent c ls2 = some out) :
    False := by
  obtain ⟨hscan, _⟩ := redactContent_none_elim c ls hn
  have hall := (scanRedact_none_iff _).mp hscan
  have hx := redactContent_all_none c ls2 hall
  rw [hx] at hs
  exact Option.noConfusion hs

lemma fixContent_establish (c : List Char) (ls : Int) (out : List Char)
    (hcr : crOnlyBeforeLF c = true) (h : redactContent c ls = some out) :
    '\r' ∉ out ∧ redactContent out ls = some out := by
  obtain ⟨i, repl, hlt, hred, hout, hdecl, hscan⟩ := redactContent_some c ls out h
  have hout_cr : '\r' ∉ out := by
    rw [hout]
    exact fun hc => joinNL_set_no_cr c i repl hcr hlt hred '\r' hc rfl
  refine ⟨hout_cr, ?_⟩
  have hpieces : ∀ p ∈ splitNL (normCRLF c), '\n' ∉ p :=
    fun p hp => splitOnCh_sep_not_mem '\n' _ p hp
  have hrnl : '\n' ∉ repl :=
    redactLine_no_nl _ repl hred (hpieces _ (getD_mem _ i hlt))
  have hsplit : splitNL out = (splitNL (normCRLF c)).set i repl := by
    rw [hout]
    exact splitNL_joinNL_set _ i repl hpieces hrnl (splitOnCh_ne_nil '\n' _)
  have hfix : fixLines (splitNL out) ls := by
    rw [hsplit]
    by_cases hvd : (0 < ls ∧ ls ≤ ((splitNL (normCRLF c)).length : Int)) ∧
        redactLine ((splitNL (normCRLF c)).getD (ls.toNat - 1) []) ≠ none
    · have hi := hdecl hvd
      rw [hi]
      rw [hi] at hred
      exact fixLines_establish_decl _ ls repl hvd.1 hred
    · exact fixLines_establish_scan _ ls i repl hvd (hscan hvd)
  rcases redactContent_of_fixLines out ls hout_cr hfix with hres | hres
  · exfalso
    obtain ⟨hsn, _⟩ := redactContent_none_elim out ls hres
    have hall := (scanRedact_none_iff _).mp hsn
    have hmem : repl ∈ splitNL (normCRLF out) := by
      rw [normCRLF_of_no_cr out hout_cr, hsplit]
      have hg : ((splitNL (normCRLF c)).set i repl).getD i [] = repl :=
        getD_set_self _ i repl hlt
      have hmem2 : ((splitNL (normCRLF c)).set i repl).getD i []
          ∈ (splitNL (normCRLF c)).set i repl :=
        getD_mem _ i (by rw [List.length_set]; exact hlt)
      rw [hg] at hmem2
      exact hmem2
    have hf := hall repl hmem
    rw [redactLine_fixpoint _ repl hred] at hf
    exact Option.noConfusion hf
  · exact hres

lemma fixContent_step_redact (c : List Char) (ls ls2 : Int) (out : List Char)
    (hcr : '\r' ∉ c)
    (hfix : redactContent c ls = none ∨ ('\r' ∉ c ∧ redactContent c ls = some c))
    (hop : redactContent c ls2 = some out) :
    redactContent out ls = none ∨ ('\r' ∉ out ∧ redactContent out ls = some out) := by
  rcases hfix with hfix | ⟨_, hfix⟩
  · exact (redactContent_none_conflict c ls ls2 out hfix hop).elim
  · obtain ⟨j, repl0, hlt, hred, hout, _, _⟩ := redactContent_some c ls2 out hop
    have hn : normCRLF c = c := normCRLF_of_no_cr c hcr
    rw [hn] at hlt hred hout
    have hLfix : fixLines (splitNL c) ls := fixLines_of_self c ls hcr hfix
    have hset := fixLines_set (splitNL c) ls j repl0 hLfix hlt hred
    have hpieces : ∀ p ∈ splitNL c, '\n' ∉ p :=
      fun p hp => splitOnCh_sep_not_mem '\n' c p hp
    have hrnl : '\n' ∉ repl0 :=
      redactLine_no_nl _ repl0 hred (hpieces _ (getD_mem _ j hlt))
    have hsplit : splitNL out = (splitNL c).set j repl0 := by
      rw [hout]
      exact splitNL_joinNL_set _ j repl0 hpieces hrnl (splitOnCh_ne_nil '\n' c)
    have hout_cr : '\r' ∉ out := by
      have hcrb : crOnlyBeforeLF c = true := crOnly_of_no_cr c hcr
      have h2 := joinNL_set_no_cr c j repl0 hcrb (by rw [hn]; exact hlt)
        (by rw [hn]; exact hred)
      rw [hn] at h2
      rw [hout]
      exact fun hc => h2 '\r' hc rfl
    have hfout : fixLines (splitNL out) ls := by
      rw [hsplit]
      exact hset
    rcases redactContent_of_fixLines out ls hout_cr hfout with hres | hres
    · exact Or.inl hres
    · exact Or.inr ⟨hout_cr, hres⟩

lemma envLinePresent_step_redact (c : List Char) (ls2 : Int) (out : List Char)
    (hcr : crOnlyBeforeLF c = true)
    (henv : (splitNL (normCRLF c)).any (fun l => trimSpace l = ".env".data) = true)
    (hop : redactContent c ls2 = some out) :
    (splitNL (normCRLF out)).any (fun l => trimSpace l = ".env".data) = true := by
  obtain ⟨i, repl, hlt, hred, hout, _, _⟩ := redactContent_some c ls2 out hop
  rw [List.any_eq_true] at henv
  obtain ⟨l0, hl0, htrim⟩ := henv
  have htrim2 : trimSpace l0 = ".env".data := by simpa using htrim
  have hl0ne : redactLine l0 = none := redactLine_none_of_trim_env l0 htrim2
  have hout_cr : '\r' ∉ out := by
    rw [hout]
    exact fun hc => joinNL_set_no_cr c i repl hcr hlt hred '\r' hc rfl
  rw [normCRLF_of_no_cr out hout_cr]
  have hpieces : ∀ p ∈ splitNL (normCRLF c), '\n' ∉ p :=
    fun p hp => splitOnCh_sep_not_mem '\n' _ p hp
  have hrnl : '\n' ∉ repl :=
    redactLine_no_nl _ repl hred (hpieces _ (getD_mem _ i hlt))
  have hsplit : splitNL out = (splitNL (normCRLF c)).set i repl := by
    rw [hout]
    exact splitNL_joinNL_set _ i repl hpieces hrnl (splitOnCh_ne_nil '\n' _)
  rw [hsplit, List.any_eq_true]
  refine ⟨l0, ?_, htrim⟩
  apply mem_set_of_ne _ i repl l0 hl0
  intro he
  rw [he, hred] at hl0ne
  exact Option.noConfusion hl0ne

lemma normCRLF_trailing_nl : ∀ (d : List Char),
    ∃ e, normCRLF (d ++ ['\n']) = e ++ ['\n'] := by
  intro d
  induction d using normCRLF.induct with
  | case1 rest ih =>
    obtain ⟨e, he⟩ := ih
    refine ⟨'\n' :: e, ?_⟩
    rw [List.cons_append, List.cons_append, normCRLF_crlf, he]
    rfl
  | case2 c rest hne ih =>
    by_cases hc : c = '\r'
    · subst hc
      rcases rest with _ | ⟨r1, rest'⟩
      · exact ⟨[], rfl⟩
      · obtain ⟨e, he⟩ := ih
        refine ⟨'\r' :: e, ?_⟩
        rw [List.cons_append, normCRLF_cons_of_not _ _ ?_, he]
        · rfl
        · intro r2 _ hh
          rw [List.cons_append] at hh
          injection hh with h1 h2
          exact hne rest' rfl (by rw [h1])
    · obtain ⟨e, he⟩ := ih
      refine ⟨c :: e, ?_⟩
      rw [List.cons_append, normCRLF_cons_ne c _ hc, he]
      rfl
  | case3 => exact ⟨[], rfl⟩

lemma envAppend_lines (s : List Char) (hcr : crOnlyBeforeLF s = true) :
    ∃ pre old,
      splitNL (normCRLF s) = pre ++ old ∧
      (∀ l ∈ old, redactLine l = none) ∧
      splitNL (normCRLF
        ((if s ≠ [] && ¬ hasSuffixStr s ['\n'] then s ++ ['\n'] else s)
          ++ ".env\n".data))
        = pre ++ [".env".data, []] := by
  have henvsplit : splitOnCh '\n' ".env\n".data = [".env".data, []] := by decide
  have henvnorm : normCRLF ".env\n".data = ".env\n".data := by decide
  by_cases hnil : s = []
  · subst hnil
    refine ⟨[], [[]], rfl, ?_, by decide⟩
    intro l hl
    have hl2 : l = [] := by simpa using hl
    rw [hl2]
    exact redactLine_nil
  · by_cases hsuf : hasSuffixStr s ['\n'] = true
    · have hcond : (if s ≠ [] && ¬ hasSuffixStr s ['\n'] then s ++ ['\n'] else s)
          = s := by
        have hb : (s ≠ [] && ¬ hasSuffixStr s ['\n']) = false := by
          simp [hsuf]
        simp only [hb, Bool.false_eq_true, if_false]
      rw [hcond]
      obtain ⟨t, ht⟩ : ∃ t, s = t ++ ['\n'] := by
        rw [hasSuffixStr] at hsuf
        obtain ⟨t, ht⟩ := List.isSuffixOf_iff_suffix.mp hsuf
        exact ⟨t, ht.symm⟩
      obtain ⟨e, he⟩ := normCRLF_trailing_nl t
      rw [ht] at hcr ⊢
      have hnorm2 : normCRLF ((t ++ ['\n']) ++ ".env\n".data)
          = (e ++ ['\n']) ++ ".env\n".data := by
        rw [normCRLF_append_crOnly (t ++ ['\n']) ".env\n".data hcr, he, henvnorm]
      refine ⟨splitNL e, [[]], ?_, ?_, ?_⟩
      · rw [he]
        show splitOnCh '\n' (e ++ '\n' :: []) = splitOnCh '\n' e ++ [[]]
        rw [splitOnCh_append_sep]
        rfl
      · intro l hl
        have hl2 : l = [] := by simpa using hl
        rw [hl2]
        exact redactLine_nil
      · rw [hnorm2]
        have h3 : (e ++ ['\n']) ++ ".env\n".data = e ++ '\n' :: ".env\n".data := by
          simp
        rw [h3]
        show splitOnCh '\n' (e ++ '\n' :: ".env\n".data)
            = splitOnCh '\n' e ++ [".env".data, []]
        rw [splitOnCh_append_sep, henvsplit]
    · have hcond : (if s ≠ [] && ¬ hasSuffixStr s ['\n'] then s ++ ['\n'] else s)
          = s ++ ['\n'] := by
        have hb : (s ≠ [] && ¬ hasSuffixStr s ['\n']) = true := by
          simp [hsuf, hnil]
        simp only [hb, if_true]
      rw [hcond]
      refine ⟨splitNL (normCRLF s), [], by simp, by simp, ?_⟩
      have hnorm2 : normCRLF ((s ++ ['\n']) ++ ".env\n".data)
          = normCRLF s ++ '\n' :: ".env\n".data := by
        have h1 : (s ++ ['\n']) ++ ".env\n".data = s ++ ('\n' :: ".env\n".data) := by
          simp
        rw [h1, normCRLF_append_crOnly s _ hcr]
        rfl
      rw [hnorm2]
      show splitOnCh '\n' (normCRLF s ++ '\n' :: ".env\n".data)
          = splitOnCh '\n' (normCRLF s) ++ [".env".data, []]
      rw [splitOnCh_append_sep, henvsplit]

lemma setFS_mem_elim (fs : FS) (p v : String) (pc : String × String)
    (h : pc ∈ setFS fs p v) : pc ∈ fs ∨ pc = (p, v) := by
  induction fs with
  | nil =>
    rw [setFS] at h
    rcases List.mem_cons.mp h with h | h
    · exact Or.inr h
    · exact absurd h (List.not_mem_nil pc)
  | cons e rest ih =>
    rcases e with ⟨q, w⟩
    rw [setFS] at h
    by_cases hq : q = p
    · rw [if_pos hq] at h
      rcases List.mem_cons.mp h with h | h
      · subst hq
        exact Or.inr h
      · exact Or.inl (List.mem_cons_of_mem _ h)
    · rw [if_neg hq] at h
      rcases List.mem_cons.mp h with h | h
      · subst h
        exact Or.inl (List.mem_cons_self _ _)
      · rcases ih h with h | h
        · exact Or.inl (List.mem_cons_of_mem _ h)
        · exact Or.inr h

lemma redactSecretLine_cases (fs : FS) (p : String) (ls : Int) :
    ((redactSecretLine fs p ls).2 = fs ∧
      ∀ c, lookupFS fs p = some c → redactContent c.data ls = none) ∨
    ∃ c out, lookupFS fs p = some c ∧ redactContent c.data ls = some out ∧
      (redactSecretLine fs p ls).2 = setFS fs p ⟨out⟩ := by
  rcases hl : lookupFS fs p with _ | c
  · left
    refine ⟨by simp only [redactSecretLine, hl], ?_⟩
    intro c hc
    exact Option.noConfusion hc
  · rcases hrc : redactContent c.data ls with _ | out
    · left
      refine ⟨by simp only [redactSecretLine, hl, hrc], ?_⟩
      intro c2 hc2
      have hce : c2 = c := (Option.some.inj hc2).symm
      rw [hce]
      exact hrc
    · right
      exact ⟨c, out, rfl, hrc, by simp only [redactSecretLine, hl, hrc]⟩

lemma ensureEnvIgnored_noop (fs : FS) (gp : String) (c : String)
    (hl : lookupFS fs gp = some c) (henv : envLinePresent c = true) :
    ensureEnvIgnored fs gp = (false, fs) := by
  rw [envLinePresent] at henv
  simp only [ensureEnvIgnored, hl, Option.map_some', Option.getD_some]
  rw [if_pos henv]

lemma ensureEnvIgnored_present (fs : FS) (gp : String)
    (hcr : crOnlyBeforeLF (((lookupFS fs gp).map String.data).getD []) = true) :
    ∃ c, lookupFS (ensureEnvIgnored fs gp).2 gp = some c ∧
      envLinePresent c = true := by
  simp only [ensureEnvIgnored]
  split
  · rename_i hany
    rcases hl : lookupFS fs gp with _ | c
    · rw [hl] at hany
      exact absurd hany (by decide)
    · rw [hl] at hany
      refine ⟨c, rfl, ?_⟩
      rw [envLinePresent]
      simpa using hany
  · rename_i hany
    refine ⟨_, lookupFS_setFS_self fs gp _, ?_⟩
    obtain ⟨pre, old, _, _, hnew⟩ :=
      envAppend_lines (((lookupFS fs gp).map String.data).getD []) hcr
    rw [envLinePresent]
    show (splitNL (normCRLF
      ((if (((lookupFS fs gp).map String.data).getD []) ≠ [] &&
          ¬ hasSuffixStr (((lookupFS fs gp).map String.data).getD []) ['\n']
        then (((lookupFS fs gp).map String.data).getD []) ++ ['\n']
        else (((lookupFS fs gp).map String.data).getD []))
        ++ ".env\n".data))).any (fun l => trimSpace l = ".env".data) = true
    rw [hnew, List.any_eq_true]
    refine ⟨".env".data, ?_, by decide⟩
    exact List.mem_append_right pre (List.mem_cons_self _ _)

lemma ensureEnvIgnored_target (fs : FS) (gp : String)
    (hcr : crOnlyBeforeLF (((lookupFS fs gp).map String.data).getD []) = true) :
    (ensureEnvIgnored fs gp).2 = fs ∨
    ∃ pre old s1,
      splitNL (normCRLF (((lookupFS fs gp).map String.data).getD []))
        = pre ++ old ∧
      (∀ l ∈ old, redactLine l = none) ∧
      (ensureEnvIgnored fs gp).2 = setFS fs gp ⟨s1⟩ ∧
      splitNL (normCRLF s1) = pre ++ [".env".data, []] ∧
      crOnlyBeforeLF s1 = true ∧
      ('\r' ∉ (((lookupFS fs gp).map String.data).getD []) → '\r' ∉ s1) := by
  simp only [ensureEnvIgnored]
  split
  · exact Or.inl rfl
  · right
    obtain ⟨pre, old, hsp, hold, hnew⟩ :=
      envAppend_lines (((lookupFS fs gp).map String.data).getD []) hcr
    refine ⟨pre, old, _, hsp, hold, rfl, hnew, ?_, ?_⟩
    · apply crOnly_append
      · split
        · exact crOnly_append _ _ hcr (by decide)
        · exact hcr
      · decide
    · intro hnocr hc
      rcases List.mem_append.mp hc with hc | hc
      · revert hc
        split
        · intro hc
          rcases List.mem_append.mp hc with hc | hc
          · exact hnocr hc
          · exact absurd hc (by decide)
        · intro hc
          exact hnocr hc
      · have h2 : ('\r' : Char) ∈ ".env\n".data := hc
        exact absurd h2 (by decide)

lemma crinv_env (fs : FS) (gp : String)
    (hcrfs : ∀ pc ∈ fs, crOnlyBeforeLF pc.2.data = true) :
    ∀ pc ∈ (ensureEnvIgnored fs gp).2, crOnlyBeforeLF pc.2.data = true := by
  have hcrgp : crOnlyBeforeLF (((lookupFS fs gp).map String.data).getD []) = true := by
    rcases hl : lookupFS fs gp with _ | c
    · decide
    · simpa using hcrfs (gp, c) (lookupFS_mem fs gp c hl)
  rcases ensureEnvIgnored_target fs gp hcrgp with hsame |
    ⟨pre, old, s1, _, _, hset, _, hcr1, _⟩
  · rw [hsame]; exact hcrfs
  · rw [hset]
    intro pc hpc
    rcases setFS_mem_elim fs gp ⟨s1⟩ pc hpc with h | h
    · exact hcrfs pc h
    · rw [h]
      simpa using hcr1

lemma crinv_redact (fs : FS) (p : String) (ls : Int)
    (hcrfs : ∀ pc ∈ fs, crOnlyBeforeLF pc.2.data = true) :
    ∀ pc ∈ (redactSecretLine fs p ls).2, crOnlyBeforeLF pc.2.data = true := by
  rcases redactSecretLine_cases fs p ls with ⟨hsame, _⟩ | ⟨c0, out, hl0, hop, hset⟩
  · rw [hsame]; exact hcrfs
  · have hcr0 : crOnlyBeforeLF c0.data = true := by
      simpa using hcrfs (p, c0) (lookupFS_mem fs p c0 hl0)
    obtain ⟨i, repl, hlt, hred, hout, _, _⟩ := redactContent_some c0.data ls out hop
    have hno : '\r' ∉ out := by
      rw [hout]
      exact fun hc => joinNL_set_no_cr c0.data i repl hcr0 hlt hred '\r' hc rfl
    rw [hset]
    intro pc hpc
    rcases setFS_mem_elim fs p ⟨out⟩ pc hpc with h | h
    · exact hcrfs pc h
    · rw [h]
      exact crOnly_of_no_cr out hno

lemma actfix_op_env (root : String) (fs : FS) (a : FixAction)
    (hcrfs : ∀ pc ∈ fs, crOnlyBeforeLF pc.2.data = true)
    (hfix : ActFix root fs a) :
    ActFix root (ensureEnvIgnored fs (pathJoin root ".gitignore")).2 a := by
  have hcrgp : crOnlyBeforeLF
      (((lookupFS fs (pathJoin root ".gitignore")).map String.data).getD []) = true := by
    rcases hl : lookupFS fs (pathJoin root ".gitignore") with _ | c
    · decide
    · simpa using hcrfs (pathJoin root ".gitignore", c)
        (lookupFS_mem fs (pathJoin root ".gitignore") c hl)
  rcases ensureEnvIgnored_target fs (pathJoin root ".gitignore") hcrgp with hsame |
    ⟨pre, old, s1, hsp, hold, hset, hnew, hcr1, hnocr1⟩
  · rw [hsame]; exact hfix
  · constructor
    · intro _
      refine ⟨⟨s1⟩, ?_, ?_⟩
      · rw [hset]
        exact lookupFS_setFS_self fs _ ⟨s1⟩
      · rw [envLinePresent]
        show (splitNL (normCRLF s1)).any (fun l => trimSpace l = ".env".data) = true
        rw [hnew, List.any_eq_true]
        exact ⟨".env".data, List.mem_append_right pre (List.mem_cons_self _ _), by decide⟩
    · intro hty
      rcases hfix.2 hty with hesc | hall
      · exact Or.inl hesc
      · right
        intro c hc
        rw [hset] at hc
        by_cases htt : pathJoin root (pathClean a.FilePath) = pathJoin root ".gitignore"
        · rw [htt, lookupFS_setFS_self] at hc
          have hce : c = ⟨s1⟩ := (Option.some.inj hc).symm
          subst hce
          rcases hl0 : lookupFS fs (pathJoin root ".gitignore") with _ | c0
          · -- previously absent: new file is exactly ".env\n"-shaped lines, no match
            rw [hl0] at hsp
            simp only [Option.map_none', Option.getD_none] at hsp
            have hx : splitNL (normCRLF ([] : List Char)) = [[]] := by decide
            rw [hx] at hsp
            left
            apply redactContent_all_none
            show ∀ l ∈ splitNL (normCRLF s1), redactLine l = none
            rw [hnew]
            intro l hl
            rcases List.mem_append.mp hl with hl | hl
            · have hl2 : l ∈ ([[]] : List (List Char)) := by
                rw [hsp]
                exact List.mem_append_left old hl
              have hl3 : l = [] := by simpa using hl2
              rw [hl3]; exact redactLine_nil
            · rcases List.mem_cons.mp hl with hl | hl
              · rw [hl]; decide
              · have hl3 : l = [] := by simpa using hl
                rw [hl3]; exact redactLine_nil
          · rw [hl0] at hsp hnocr1
            simp only [Option.map_some', Option.getD_some] at hsp hnocr1
            rcases hall c0 (by rw [htt]; exact hl0) with hd | ⟨hnoc0, hd⟩
            · -- no line matched before; still none after the append
              left
              apply redactContent_all_none
              show ∀ l ∈ splitNL (normCRLF s1), redactLine l = none
              rw [hnew]
              obtain ⟨hscn, _⟩ := redactContent_none_elim c0.data a.LineStart hd
              have hallnone := (scanRedact_none_iff _).mp hscn
              intro l hl
              rcases List.mem_append.mp hl with hl | hl
              · apply hallnone
                rw [hsp]
                exact List.mem_append_left old hl
              · rcases List.mem_cons.mp hl with hl | hl
                · rw [hl]; decide
                · have hl3 : l = [] := by simpa using hl
                  rw [hl3]; exact redactLine_nil
            · -- identity redaction before; still the identity after the append
              have hn0 : normCRLF c0.data = c0.data := normCRLF_of_no_cr c0.data hnoc0
              rw [hn0] at hsp
              have hfixl : fixLines (splitNL c0.data) a.LineStart :=
                fixLines_of_self c0.data a.LineStart hnoc0 hd
              rw [hsp] at hfixl
              have hfix2 : fixLines (pre ++ [".env".data, []]) a.LineStart :=
                fixLines_append pre old [".env".data, []] a.LineStart hfixl hold
                  (by intro l hl
                      rcases List.mem_cons.mp hl with hl | hl
                      · rw [hl]; decide
                      · have hl3 : l = [] := by simpa using hl
                        rw [hl3]; exact redactLine_nil)
              have hnos1 : '\r' ∉ s1 := hnocr1 hnoc0
              have hn1 : normCRLF s1 = s1 := normCRLF_of_no_cr s1 hnos1
              rw [hn1] at hnew
              have hfix3 : fixLines (splitNL ((⟨s1⟩ : String).data)) a.LineStart := by
                show fixLines (splitNL s1) a.LineStart
                rw [hnew]
                exact hfix2
              rcases redactContent_of_fixLines s1 a.LineStart hnos1
                  (by rw [hnew]; exact hfix2) with hres | hres
              · exact Or.inl hres
              · exact Or.inr ⟨hnos1, hres⟩
        · rw [lookupFS_setFS_ne fs _ ⟨s1⟩ _ htt] at hc
          exact hall c hc

lemma actfix_op_redact (root : String) (fs : FS) (a : FixAction)
    (p : String) (ls2 : Int)
    (hcrfs : ∀ pc ∈ fs, crOnlyBeforeLF pc.2.data = true)
    (hfix : ActFix root fs a) :
    ActFix root (redactSecretLine fs p ls2).2 a := by
  rcases redactSecretLine_cases fs p ls2 with ⟨hsame, _⟩ | ⟨c0, out, hl0, hop, hset⟩
  · rw [hsame]; exact hfix
  · have hcr0 : crOnlyBeforeLF c0.data = true := by
      simpa using hcrfs (p, c0) (lookupFS_mem fs p c0 hl0)
    constructor
    · intro hty
      obtain ⟨cg, hlg, henvg⟩ := hfix.1 hty
      by_cases hgt : pathJoin root ".gitignore" = p
      · have hceq : cg = c0 := by
          rw [hgt] at hlg
          exact Option.some.inj (hlg.symm.trans hl0)
        subst hceq
        refine ⟨⟨out⟩, ?_, ?_⟩
        · rw [hset, hgt]
          exact lookupFS_setFS_self fs p ⟨out⟩
        · rw [envLinePresent] at henvg ⊢
          exact envLinePresent_step_redact cg.data ls2 out hcr0 henvg hop
      · refine ⟨cg, ?_, henvg⟩
        rw [hset, lookupFS_setFS_ne fs p ⟨out⟩ _ hgt]
        exact hlg
    · intro hty
      rcases hfix.2 hty with hesc | hall
      · exact Or.inl hesc
      · right
        intro c hc
        rw [hset] at hc
        by_cases htt : pathJoin root (pathClean a.FilePath) = p
        · rw [htt, lookupFS_setFS_self] at hc
          have hce : c = ⟨out⟩ := (Option.some.inj hc).symm
          subst hce
          rcases hall c0 (by rw [htt]; exact hl0) with hd | ⟨hnoc0, hd⟩
          · exact (redactContent_none_conflict c0.data a.LineStart ls2 out hd hop).elim
          · exact fixContent_step_redact c0.data a.LineStart ls2 out hnoc0
              (Or.inr ⟨hnoc0, hd⟩) hop
        · rw [lookupFS_setFS_ne fs p ⟨out⟩ _ htt] at hc
          exact hall c hc

lemma applyStep_fs_cases (root : String) (st : ApplyResult × FS) (b : FixAction) :
    (applyStep root st b).2 = st.2 ∨
    (applyStep root st b).2 = (ensureEnvIgnored st.2 (pathJoin root ".gitignore")).2 ∨
    (applyStep root st b).2
      = (redactSecretLine st.2 (pathJoin root (pathClean b.FilePath)) b.LineStart).2 := by
  simp only [applyStep]
  split
  · rcases hge : ensureEnvIgnored st.2 (pathJoin root ".gitignore") with ⟨ap, fs'⟩
    right; left
    split <;> rfl
  · split
    · split
      · left; rfl
      · rcases hrs : redactSecretLine st.2 (pathJoin root (pathClean b.FilePath))
            b.LineStart with ⟨ap, fs'⟩
        right; right
        split <;> rfl
    · left; rfl

lemma applyStep_crinv (root : String) (st : ApplyResult × FS) (b : FixAction)
    (hcrfs : ∀ pc ∈ st.2, crOnlyBeforeLF pc.2.data = true) :
    ∀ pc ∈ (applyStep root st b).2, crOnlyBeforeLF pc.2.data = true := by
  rcases applyStep_fs_cases root st b with h | h | h <;> rw [h]
  · exact hcrfs
  · exact crinv_env st.2 _ hcrfs
  · exact crinv_redact st.2 _ _ hcrfs

lemma applyStep_actfix_pres (root : String) (st : ApplyResult × FS)
    (a b : FixAction)
    (hcrfs : ∀ pc ∈ st.2, crOnlyBeforeLF pc.2.data = true)
    (hfix : ActFix root st.2 a) :
    ActFix root (applyStep root st b).2 a := by
  rcases applyStep_fs_cases root st b with h | h | h <;> rw [h]
  · exact hfix
  · exact actfix_op_env root st.2 a hcrfs hfix
  · exact actfix_op_redact root st.2 a _ _ hcrfs hfix

lemma applyStep_actfix_self (root : String) (st : ApplyResult × FS) (b : FixAction)
    (hcrfs : ∀ pc ∈ st.2, crOnlyBeforeLF pc.2.data = true) :
    ActFix root (applyStep root st b).2 b := by
  have hcrgp : crOnlyBeforeLF
      (((lookupFS st.2 (pathJoin root ".gitignore")).map String.data).getD []) = true := by
    rcases hl : lookupFS st.2 (pathJoin root ".gitignore") with _ | c
    · decide
    · simpa using hcrfs (pathJoin root ".gitignore", c)
        (lookupFS_mem st.2 (pathJoin root ".gitignore") c hl)
  by_cases hty : b.Type' = FixGitIgnoreEnv
  · have hfs : (applyStep root st b).2
        = (ensureEnvIgnored st.2 (pathJoin root ".gitignore")).2 := by
      simp only [applyStep, if_pos hty]
    rw [hfs]
    constructor
    · intro _
      exact ensureEnvIgnored_present st.2 (pathJoin root ".gitignore") hcrgp
    · intro hty2
      rw [hty2] at hty
      exact absurd hty (by decide)
  · by_cases hty2 : b.Type' = FixSecretRedaction
    · constructor
      · intro hg
        exact absurd hg hty
      · intro _
        by_cases hesc : ¬ hasPrefixStr (pathJoin root (pathClean b.FilePath)).data
            (root.data ++ ['/']) ∧ pathJoin root (pathClean b.FilePath) ≠ root
        · exact Or.inl hesc
        · right
          intro c hc
          have hfs : (applyStep root st b).2
              = (redactSecretLine st.2 (pathJoin root (pathClean b.FilePath))
                  b.LineStart).2 := by
            simp only [applyStep, if_neg hty, if_pos hty2, if_neg hesc]
            rcases hrs : redactSecretLine st.2 (pathJoin root (pathClean b.FilePath))
                b.LineStart with ⟨ap, fs'⟩
            split <;> rfl
          rw [hfs] at hc
          rcases redactSecretLine_cases st.2 (pathJoin root (pathClean b.FilePath))
              b.LineStart with ⟨hsame, hnone⟩ | ⟨c0, out, hl0, hop, hset⟩
          · rw [hsame] at hc
            exact Or.inl (hnone c hc)
          · rw [hset, lookupFS_setFS_self] at hc
            have hce : c = ⟨out⟩ := (Option.some.inj hc).symm
            subst hce
            have hcr0 : crOnlyBeforeLF c0.data = true := by
              simpa using hcrfs (pathJoin root (pathClean b.FilePath), c0)
                (lookupFS_mem st.2 _ c0 hl0)
            obtain ⟨hnoout, hfixout⟩ :=
              fixContent_establish c0.data b.LineStart out hcr0 hop
            exact Or.inr ⟨hnoout, hfixout⟩
    · constructor
      · intro hg
        exact absurd hg hty
      · intro hs2
        exact absurd hs2 hty2

lemma actfix_second (root : String) (fs : FS) (b : FixAction)
    (hfix : ActFix root fs b) (res : ApplyResult) :
    (applyStep root (res, fs) b).2 = fs := by
  simp only [applyStep]
  split
  · rename_i hty
    obtain ⟨cg, hlg, henvg⟩ := hfix.1 hty
    simp only [ensureEnvIgnored_noop fs (pathJoin root ".gitignore") cg hlg henvg]
  · split
    · rename_i hty1 hty2
      split
      · rfl
      · rename_i hesc
        rcases hfix.2 hty2 with hl | hall
        · exact absurd hl hesc
        · rcases redactSecretLine_cases fs (pathJoin root (pathClean b.FilePath))
              b.LineStart with ⟨hsame, _⟩ | ⟨c0, out, hl0, hop, hset⟩
          · rcases hrs : redactSecretLine fs (pathJoin root (pathClean b.FilePath))
                b.LineStart with ⟨ap, fs'⟩
            rw [hrs] at hsame
            split <;> exact hsame
          · rcases hall c0 hl0 with hd | ⟨hnoc0, hd⟩
            · rw [hd] at hop
              exact Option.noConfusion hop
            · have hoe : out = c0.data := Option.some.inj (hop.symm.trans hd)
              rcases hrs : redactSecretLine fs (pathJoin root (pathClean b.FilePath))
                  b.LineStart with ⟨ap, fs'⟩
              rw [hrs] at hset
              have hid : fs' = fs := by
                calc fs' = setFS fs (pathJoin root (pathClean b.FilePath)) ⟨c0.data⟩ := by
                      rw [← hoe]
                      exact hset
                  _ = setFS fs (pathJoin root (pathClean b.FilePath)) c0 := rfl
                  _ = fs := setFS_same fs _ c0 hl0
              split <;> exact hid
    · rfl

lemma foldl_actfix_pres (root : String) (actions : List FixAction)
    (st : ApplyResult × FS) (a : FixAction)
    (hcrfs : ∀ pc ∈ st.2, crOnlyBeforeLF pc.2.data = true)
    (hfix : ActFix root st.2 a) :
    ActFix root (actions.foldl (applyStep root) st).2 a := by
  induction actions generalizing st with
  | nil => exact hfix
  | cons b rest ih =>
    rw [List.foldl_cons]
    exact ih (applyStep root st b) (applyStep_crinv root st b hcrfs)
      (applyStep_actfix_pres root st a b hcrfs hfix)

lemma foldl_actfix (root : String) (actions : List FixAction)
    (st : ApplyResult × FS)
    (hcrfs : ∀ pc ∈ st.2, crOnlyBeforeLF pc.2.data = true) :
    ∀ a ∈ actions, ActFix root (actions.foldl (applyStep root) st).2 a := by
  induction actions generalizing st with
  | nil =>
    intro a ha
    exact absurd ha (List.not_mem_nil a)
  | cons b rest ih =>
    intro a ha
    rw [List.foldl_cons]
    have hcr1 := applyStep_crinv root st b hcrfs
    rcases List.mem_cons.mp ha with ha | ha
    · subst ha
      exact foldl_actfix_pres root rest (applyStep root st a) a hcr1
        (applyStep_actfix_self root st a hcrfs)
    · exact ih (applyStep root st b) hcr1 a ha

lemma foldl_second_id (root : String) (actions : List FixAction) (fs : FS)
    (hall : ∀ a ∈ actions, ActFix root fs a) (res : ApplyResult) :
    (actions.foldl (applyStep root) (res, fs)).2 = fs := by
  revert hall
  induction actions generalizing res with
  | nil =>
    intro _
    rfl
  | cons b rest ih =>
    intro hall
    rw [List.foldl_cons]
    have hb := actfix_second root fs b (hall b (List.mem_cons_self _ _)) res
    rcases hst : applyStep root (res, fs) b with ⟨res1, fs1⟩
    rw [hst] at hb
    have hb1 : fs1 = fs := hb
    subst hb1
    exact ih res1 (fun a ha => hall a (List.mem_cons_of_mem _ ha))

/-- C4 (counterexample): `ApplyPlan` is not idempotent on arbitrary working
copies.  A file whose lone carriage return precedes a CRLF pair is rewritten
by the first application (which satisfies every action: all actions applied,
no Manual items) and rewritten again, differently, by the second application,
because each pass re-normalises CRLF pairs one level further. -/
theorem applyPlan_second_apply_changes :
    (ApplyPlan "/w/repo"
        ⟨[⟨FixSecretRedaction, "f", 2, "d"⟩], []⟩
        [("/w/repo/f", "K\r\r\nTOKEN=abcdefghijkl")]).1.Applied
      = [⟨FixSecretRedaction, "f", 2, "d"⟩] ∧
    (ApplyPlan "/w/repo"
        ⟨[⟨FixSecretRedaction, "f", 2, "d"⟩], []⟩
        [("/w/repo/f", "K\r\r\nTOKEN=abcdefghijkl")]).1.Manual = [] ∧
    (ApplyPlan "/w/repo"
        ⟨[⟨FixSecretRedaction, "f", 2, "d"⟩], []⟩
        (ApplyPlan "/w/repo"
          ⟨[⟨FixSecretRedaction, "f", 2, "d"⟩], []⟩
          [("/w/repo/f", "K\r\r\nTOKEN=abcdefghijkl")]).2).2
      ≠ (ApplyPlan "/w/repo"
          ⟨[⟨FixSecretRedaction, "f", 2, "d"⟩], []⟩
          [("/w/repo/f", "K\r\r\nTOKEN=abcdefghijkl")]).2 := by
  refine ⟨by decide, by decide, by decide⟩

/-- C4 (amended): provided every carriage return in the working copy is part
of a CRLF pair, applying the same plan twice in a row is idempotent on the
file system: the second `ApplyPlan` call leaves every file's content exactly
as the first left it (a `.gitignore` already listing `.env` is not appended
to again, and an already-redacted line is rewritten to itself). -/
theorem applyPlan_idempotent_crlf (repoDir : String) (plan : Plan) (fs : FS)
    (hcr : ∀ pc ∈ fs, crOnlyBeforeLF pc.2.data = true) :
    (ApplyPlan repoDir plan (ApplyPlan repoDir plan fs).2).2
      = (ApplyPlan repoDir plan fs).2 := by
  rw [ApplyPlan, ApplyPlan]
  have hall := foldl_actfix (pathClean repoDir) plan.Actions
    ({ Applied := [], Manual := plan.Manual }, fs) hcr
  exact foldl_second_id (pathClean repoDir) plan.Actions _ hall _

/-- Witness for the amended C4 at a CRLF-disciplined working copy. -/
theorem applyPlan_idempotent_crlf_witness :
    (∀ pc ∈ ([("/w/repo/f", "K\r\nTOKEN=abcdefghijkl")] : FS),
      crOnlyBeforeLF pc.2.data = true) ∧
    (ApplyPlan "/w/repo"
        ⟨[⟨FixSecretRedaction, "f", 2, "d"⟩, ⟨FixGitIgnoreEnv, ".gitignore", 0, "e"⟩], []⟩
        (ApplyPlan "/w/repo"
          ⟨[⟨FixSecretRedaction, "f", 2, "d"⟩, ⟨FixGitIgnoreEnv, ".gitignore", 0, "e"⟩], []⟩
          [("/w/repo/f", "K\r\nTOKEN=abcdefghijkl")]).2).2
      = (ApplyPlan "/w/repo"
          ⟨[⟨FixSecretRedaction, "f", 2, "d"⟩, ⟨FixGitIgnoreEnv, ".gitignore", 0, "e"⟩], []⟩
          [("/w/repo/f", "K\r\nTOKEN=abcdefghijkl")]).2 :=
  ⟨by decide,
   applyPlan_idempotent_crlf "/w/repo"
     ⟨[⟨FixSecretRedaction, "f", 2, "d"⟩, ⟨FixGitIgnoreEnv, ".gitignore", 0, "e"⟩], []⟩
     [("/w/repo/f", "K\r\nTOKEN=abcdefghijkl")] (by decide)⟩

end Argus
